import Mathlib

/-!
Shallow embedding of the two register-allocation passes of the repository:
`src/cranelift-codegen/src/regalloc/minimal.rs` (the minimal register
allocator) and `src/cranelift-codegen/src/regalloc/splitting.rs` (the
live-range splitting pass), together with theorems settling the claims
about them.

Modelling conventions:
* entity references (`Value`, `Inst`, `Ebb`, register units, stack slots,
  register classes) are natural numbers, as they are plain indices in the
  source;
* the mutable function state (`FuncState` below) carries the per-entity
  maps the passes read and write (`locations`, instruction data, EBB
  parameter lists, the layout, counters for fresh entities);
* fallible operations (`unwrap`, `panic!`, `debug_assert!`) are modelled
  with `Except String`; a `debug_assert!` is an abort in the source's
  debug configuration and the spec treats all of them as aborts;
* inserted fill/spill/jump instructions are recorded in an `emitted`
  trace in program order; cursor positioning itself has no observable
  effect beyond that order and is not modelled;
* the `RegisterSet` of the ISA is a bit set of register units, modelled
  as a `Finset Nat`; a register class is its ordered member list, as
  produced by the set iterator the source relies on.
-/

namespace Cretonne

abbrev Value := Nat
abbrev Inst := Nat
abbrev Ebb := Nat
abbrev RegUnit := Nat
abbrev StackSlot := Nat
abbrev RegClassId := Nat

/-- Home of a value, as mutated by the allocator (`ir::ValueLoc`). -/
inductive ValueLoc where
  | unassigned
  | reg (unit : RegUnit)
  | stack (slot : StackSlot)
deriving DecidableEq

/-- ABI location of a signature argument (`ir::ArgumentLoc`). -/
inductive ArgumentLoc where
  | reg (unit : RegUnit)
  | stack (offset : Int)
  | unassigned
deriving DecidableEq

/-- One entry of a signature's parameter or return list. -/
structure AbiParam where
  location : ArgumentLoc
  value_type : Nat
deriving DecidableEq

/-- Operand constraint kinds of the target encoding (`isa::ConstraintKind`). -/
inductive ConstraintKind where
  | reg
  | fixedReg (unit : RegUnit)
  | tied (input : Nat)
  | fixedTied (unit : RegUnit)
  | stack
deriving DecidableEq

structure OperandConstraint where
  kind : ConstraintKind
  regclass : RegClassId
deriving DecidableEq

/-- The `OperandConstraints` record of an encoding: parallel input and
output constraint arrays plus the two summary flags. -/
structure OperandConstraints where
  ins : List OperandConstraint
  outs : List OperandConstraint
  fixed_ins : Bool
  fixed_outs : Bool
deriving DecidableEq

/-- Opcodes that the two passes dispatch on.  `ret` stands for the source's
`Return`, `plainOp` for any ordinary encodable instruction. -/
inductive Opcode where
  | copy | spill | fill
  | jump | fallthrough
  | brz | brnz | brIcmp | brif | brff
  | indirectJumpTableBr
  | ret | fallthroughReturn | trap
  | call | callIndirect
  | regmove | regfill | regspill | copySpecial
  | plainOp
deriving DecidableEq

/-- Branch/jump opcodes (`Opcode::is_branch`). -/
def Opcode.is_branch : Opcode → Bool
  | .jump | .fallthrough | .brz | .brnz | .brIcmp | .brif | .brff
  | .indirectJumpTableBr => true
  | _ => false

/-- Terminator opcodes (`Opcode::is_terminator`). -/
def Opcode.is_terminator : Opcode → Bool
  | .jump | .fallthrough | .indirectJumpTableBr
  | .ret | .fallthroughReturn | .trap => true
  | _ => false

/-- Call opcodes (`Opcode::is_call`). -/
def Opcode.is_call : Opcode → Bool
  | .call | .callIndirect => true
  | _ => false

/-- Instruction payloads distinguished by `classify_branch` and the
rewriting code (`ir::InstructionData`).  Branch formats carry their fixed
(condition) operands separately from the variable EBB arguments, exactly
as the source's `inst_fixed_args` / `inst_variable_args` split does. -/
inductive InstructionData where
  | indirectJump (arg : Value)
  | jump (destination : Ebb) (varargs : List Value)
  | branch (cond : Value) (destination : Ebb) (varargs : List Value)
  | branchIcmp (cc : Nat) (x y : Value) (destination : Ebb) (varargs : List Value)
  | branchInt (cc : Nat) (flag : Value) (destination : Ebb) (varargs : List Value)
  | branchFloat (cc : Nat) (flag : Value) (destination : Ebb) (varargs : List Value)
  | unary (arg : Value)
  | multi (args : List Value)
deriving DecidableEq

/-- The full argument list of an instruction (`dfg.inst_args`): fixed
arguments first, then the variable arguments. -/
def InstructionData.args : InstructionData → List Value
  | .indirectJump a => [a]
  | .jump _ va => va
  | .branch c _ va => c :: va
  | .branchIcmp _ x y _ va => x :: y :: va
  | .branchInt _ f _ va => f :: va
  | .branchFloat _ f _ va => f :: va
  | .unary a => [a]
  | .multi as => as

/-- The variable (EBB) arguments of a branch (`dfg.inst_variable_args`). -/
def InstructionData.varargs : InstructionData → List Value
  | .indirectJump _ => []
  | .jump _ va => va
  | .branch _ _ va => va
  | .branchIcmp _ _ _ _ va => va
  | .branchInt _ _ _ va => va
  | .branchFloat _ _ _ va => va
  | .unary _ => []
  | .multi _ => []

/-- Positional update of an instruction argument
(`dfg.inst_args_mut(inst)[k] = v`), indexing fixed arguments first. -/
def InstructionData.setArg : InstructionData → Nat → Value → InstructionData
  | .indirectJump _, 0, v => .indirectJump v
  | .indirectJump a, _+1, _ => .indirectJump a
  | .jump d va, k, v => .jump d (va.set k v)
  | .branch _ d va, 0, v => .branch v d va
  | .branch c d va, k+1, v => .branch c d (va.set k v)
  | .branchIcmp cc _ y d va, 0, v => .branchIcmp cc v y d va
  | .branchIcmp cc x _ d va, 1, v => .branchIcmp cc x v d va
  | .branchIcmp cc x y d va, k+2, v => .branchIcmp cc x y d (va.set k v)
  | .branchInt cc _ d va, 0, v => .branchInt cc v d va
  | .branchInt cc f d va, k+1, v => .branchInt cc f d (va.set k v)
  | .branchFloat cc _ d va, 0, v => .branchFloat cc v d va
  | .branchFloat cc f d va, k+1, v => .branchFloat cc f d (va.set k v)
  | .unary _, 0, v => .unary v
  | .unary a, _+1, _ => .unary a
  | .multi as, k, v => .multi (as.set k v)

/-- Point update of a map from entity ids. -/
def upd {β : Type} (f : Nat → β) (x : Nat) (v : β) : Nat → β :=
  fun y => if y = x then v else f y

@[simp] theorem upd_same {β : Type} (f : Nat → β) (x : Nat) (v : β) :
    upd f x v x = v := by simp [upd]

@[simp] theorem upd_of_ne {β : Type} (f : Nat → β) {x y : Nat} (v : β) (h : y ≠ x) :
    upd f x v y = f y := by simp [upd, h]

/-- Trace of instructions inserted by the allocator: fills and spills
around existing instructions, the entry-block spills, and the jump put
into a freshly created EBB. -/
inductive EmitEvent where
  | fillBefore (inst : Inst) (temp arg : Value)
  | spillBefore (inst : Inst) (dest temp : Value)
  | spillAfter (inst : Inst) (result new_result : Value)
  | spillEntry (param new_param : Value)
  | jumpInserted (jump_inst : Inst) (new_ebb : Ebb) (target : Ebb) (varargs : List Value)
deriving DecidableEq

/-- The ISA collaborator surface the allocator consumes: the ordered
member list of each register class (the iteration order of
`RegisterSet::iter`), the register class demanded by the first input
constraint of a `spill` encoding (read in `visit_branch`), and the
flags predicate on value types (`Type::is_flags`). -/
structure MEnv where
  classes : RegClassId → List RegUnit
  spill_ins_rc : RegClassId
  type_flags : Nat → Bool

/-- The free register set held by the allocator (`struct Regs`). -/
structure Regs where
  registers : Finset Nat
deriving DecidableEq

/-- Take a specific register unit (`Regs::take_specific`). -/
def Regs.take_specific (s : Regs) (_rc : RegClassId) (r : RegUnit) : Regs :=
  ⟨s.registers.erase r⟩

/-- Take the first available register of a class (`Regs::take`): the
iterator yields the class members in order and the first available one is
removed from the set. -/
def Regs.take (s : Regs) (classes : RegClassId → List RegUnit) (rc : RegClassId) :
    Option RegUnit × Regs :=
  match (classes rc).find? (fun r => decide (r ∈ s.registers)) with
  | some r => (some r, ⟨s.registers.erase r⟩)
  | none => (none, s)

/-- Return a register unit to the set (`Regs::free`). -/
def Regs.free (s : Regs) (_rc : RegClassId) (r : RegUnit) : Regs :=
  ⟨insert r s.registers⟩

/-- Mutable function state shared by the embedded pass functions: the
per-instruction data and results, the encoding constraints, the EBB
parameter lists and instruction lists, the layout order, the value
locations and types, fresh-entity counters, the `new_blocks` flag and the
trace of emitted instructions. -/
structure FuncState where
  instData : Inst → InstructionData
  instOpcode : Inst → Opcode
  instResults : Inst → List Value
  encodings : Inst → Option OperandConstraints
  ebbParams : Ebb → List Value
  ebbInsts : Ebb → List Inst
  layout : List Ebb
  locations : Value → ValueLoc
  valueType : Value → Nat
  sigParams : List AbiParam
  sigReturns : List AbiParam
  nextValue : Nat
  nextInst : Nat
  nextEbb : Nat
  nextSlot : Nat
  newBlocks : Bool
  emitted : List EmitEvent

/-- Is a location a stack slot. -/
def locIsStack : ValueLoc → Bool
  | .stack _ => true
  | _ => false

/-- Allocate a fresh spill slot (`stack_slots.make_spill_slot`): slots are
append-only, handed out in increasing order and never recycled. -/
def make_spill_slot (st : FuncState) (_ty : Nat) : StackSlot × FuncState :=
  (st.nextSlot, { st with nextSlot := st.nextSlot + 1 })

/-! ## The minimal register allocator (`minimal.rs`) -/

/-- One entry of the allocator's `reg_args` vector:
`(k, arg, rc, reg, is_tied)` as pushed in `visit_plain_inst`. -/
structure RegArg where
  k : Nat
  arg : Value
  rc : RegClassId
  reg : RegUnit
  is_tied : Bool
deriving DecidableEq

/-- One entry of the allocator's `reg_results` vector:
`(k, result, rc, reg)` as pushed in `visit_plain_inst`. -/
structure RegResult where
  k : Nat
  result : Value
  rc : RegClassId
  reg : RegUnit
deriving DecidableEq

/-- Phase 1 of `visit_plain_inst`: reserve the fixed input registers
(`FixedReg`/`FixedTied` input constraints take their unit). -/
def reserve_fixed_ins_list (cons : List OperandConstraint) (regs : Regs) : Regs :=
  match cons with
  | [] => regs
  | c :: rest =>
    let regs1 :=
      match c.kind with
      | .fixedReg r => regs.take_specific c.regclass r
      | .fixedTied r => regs.take_specific c.regclass r
      | _ => regs
    reserve_fixed_ins_list rest regs1

/-- Reserve fixed input registers when the encoding has them
(`if constraints.fixed_ins`). -/
def reserve_fixed_ins (cons : Option OperandConstraints) (regs : Regs) : Regs :=
  match cons with
  | some c => if c.fixed_ins then reserve_fixed_ins_list c.ins regs else regs
  | none => regs

/-- Phase 2 of `visit_plain_inst`: assign input registers in argument
order.  For each argument `k` whose constraint is not `Stack`, acquire a
register unit (`FixedReg`/`FixedTied` use their unit, `Tied`/`Reg` take a
free one from the class) and record `(k, arg, rc, reg, is_tied)`.
The `debug_assert!` that a non-flag argument is stack resident and the
`unwrap`s on the constraint record and on `take` become errors. -/
def assign_ins (env : MEnv) (st : FuncState) (cons : Option OperandConstraints)
    (args : List Value) (k : Nat) (regs : Regs) :
    Except String (List RegArg × Regs) :=
  match args with
  | [] => .ok ([], regs)
  | arg :: rest =>
    if locIsStack (st.locations arg) || env.type_flags (st.valueType arg) then
      match cons with
      | none => .error "operand constraints missing"
      | some c =>
        match c.ins.get? k with
        | none => .error "input constraint index out of bounds"
        | some constraint =>
          if constraint.kind = ConstraintKind.stack then
            assign_ins env st cons rest (k+1) regs
          else
            let step : Except String (RegUnit × Bool × Regs) :=
              match constraint.kind with
              | .fixedReg r => .ok (r, false, regs)
              | .fixedTied r => .ok (r, true, regs)
              | .tied _ =>
                match regs.take env.classes constraint.regclass with
                | (some r, regs1) => .ok (r, true, regs1)
                | (none, _) => .error "register class exhausted"
              | .reg =>
                match regs.take env.classes constraint.regclass with
                | (some r, regs1) => .ok (r, false, regs1)
                | (none, _) => .error "register class exhausted"
              | .stack => .error "unreachable stack constraint"
            match step with
            | .error e => .error e
            | .ok (reg, is_tied, regs1) =>
              match assign_ins env st cons rest (k+1) regs1 with
              | .error e => .error e
              | .ok (ras, regs2) =>
                .ok (⟨k, arg, constraint.regclass, reg, is_tied⟩ :: ras, regs2)
    else
      .error "non-flag argument not stack resident at allocator entry"

/-- Phase 3 of `visit_plain_inst`: emit the fills.  A flags argument only
has its location pinned; otherwise a fresh `temp = fill arg` is inserted
before the instruction, gets the chosen register, and replaces argument
`k`.  A register chosen for an untied argument is freed right away. -/
def emit_fills (env : MEnv) (st : FuncState) (regs : Regs) (inst : Inst) :
    List RegArg → FuncState × Regs
  | [] => (st, regs)
  | ra :: rest =>
    let st1 :=
      if env.type_flags (st.valueType ra.arg) then
        { st with locations := upd st.locations ra.arg (.reg ra.reg) }
      else
        let temp := st.nextValue
        { st with
          nextValue := st.nextValue + 1
          valueType := upd st.valueType temp (st.valueType ra.arg)
          locations := upd st.locations temp (.reg ra.reg)
          instData := upd st.instData inst ((st.instData inst).setArg ra.k temp)
          emitted := st.emitted ++ [.fillBefore inst temp ra.arg] }
    let regs1 := if ra.is_tied then regs else regs.free ra.rc ra.reg
    emit_fills env st1 regs1 inst rest

/-- Phase 4 of `visit_plain_inst`: reserve fixed output registers that are
not also tied (`FixedReg` outputs only). -/
def reserve_fixed_outs_list (cons : List OperandConstraint) (regs : Regs) : Regs :=
  match cons with
  | [] => regs
  | c :: rest =>
    let regs1 :=
      match c.kind with
      | .fixedReg r => regs.take_specific c.regclass r
      | _ => regs
    reserve_fixed_outs_list rest regs1

/-- Reserve fixed output registers when the encoding has them
(`if constraints.fixed_outs`). -/
def reserve_fixed_outs (cons : Option OperandConstraints) (regs : Regs) : Regs :=
  match cons with
  | some c => if c.fixed_outs then reserve_fixed_outs_list c.outs regs else regs
  | none => regs

/-- Phase 5 of `visit_plain_inst`: assign output registers in result
order.  `FixedTied`/`FixedReg` use their unit, `Tied(input)` looks up the
recorded input register (the `debug_assert!` that it was marked tied
becomes an error), `Reg` takes a free register, `Stack` is an invariant
violation. -/
def assign_outs (env : MEnv) (cons : Option OperandConstraints)
    (results : List Value) (k : Nat) (reg_args : List RegArg) (regs : Regs) :
    Except String (List RegResult × Regs) :=
  match results with
  | [] => .ok ([], regs)
  | result :: rest =>
    match cons with
    | none => .error "operand constraints missing"
    | some c =>
      match c.outs.get? k with
      | none => .error "output constraint index out of bounds"
      | some constraint =>
        if constraint.kind = ConstraintKind.stack then
          .error "stack constraint on a plain result"
        else
          let step : Except String (RegClassId × RegUnit × Regs) :=
            match constraint.kind with
            | .fixedTied r => .ok (constraint.regclass, r, regs)
            | .fixedReg r => .ok (constraint.regclass, r, regs)
            | .tied input =>
              match reg_args.find? (fun e => e.k == input) with
              | none => .error "tied output without a matching input"
              | some hit =>
                if hit.is_tied then .ok (hit.rc, hit.reg, regs)
                else .error "tied output refers to an untied input"
            | .reg =>
              match regs.take env.classes constraint.regclass with
              | (some r, regs1) => .ok (constraint.regclass, r, regs1)
              | (none, _) => .error "register class exhausted"
            | .stack => .error "unreachable stack constraint"
          match step with
          | .error e => .error e
          | .ok (rc, reg, regs1) =>
            match assign_outs env cons rest (k+1) reg_args regs1 with
            | .error e => .error e
            | .ok (rrs, regs2) => .ok (⟨k, result, rc, reg⟩ :: rrs, regs2)

/-- Phase 6 of `visit_plain_inst`: emit the spills.  A flags result keeps
its register location; otherwise the result is renamed to a fresh
register-resident value (`replace_result`), `result = spill new_result`
is inserted after the instruction, and the original result gets a fresh
stack slot.  Every output register is freed afterwards. -/
def emit_spills (env : MEnv) (st : FuncState) (regs : Regs) (inst : Inst) :
    List RegResult → FuncState × Regs
  | [] => (st, regs)
  | rr :: rest =>
    let st1 :=
      if env.type_flags (st.valueType rr.result) then
        { st with locations := upd st.locations rr.result (.reg rr.reg) }
      else
        let new_result := st.nextValue
        let stA := { st with
          nextValue := st.nextValue + 1
          valueType := upd st.valueType new_result (st.valueType rr.result)
          locations := upd st.locations new_result (.reg rr.reg)
          instResults := upd st.instResults inst ((st.instResults inst).set rr.k new_result)
          emitted := st.emitted ++ [.spillAfter inst rr.result new_result] }
        let (ss, stB) := make_spill_slot stA (st.valueType rr.result)
        { stB with locations := upd stB.locations rr.result (.stack ss) }
    let regs1 := regs.free rr.rc rr.reg
    emit_spills env st1 regs1 inst rest

/-- `Context::visit_plain_inst`: the six phases in source order.  The
cursor repositioning at the end only affects iteration order and is not
modelled. -/
def visit_plain_inst (env : MEnv) (st : FuncState) (regs : Regs) (inst : Inst)
    (_opcode : Opcode) : Except String (FuncState × Regs) :=
  let cons := st.encodings inst
  let regsA := reserve_fixed_ins cons regs
  match assign_ins env st cons (st.instData inst).args 0 regsA with
  | .error e => .error e
  | .ok (reg_args, regsB) =>
    let (stC, regsC) := emit_fills env st regsB inst reg_args
    let regsD := reserve_fixed_outs cons regsC
    match assign_outs env cons (stC.instResults inst) 0 reg_args regsD with
    | .error e => .error e
    | .ok (reg_results, regsE) => .ok (emit_spills env stC regsE inst reg_results)

/-- `Context::visit_copy`: no code is emitted, the destination simply
shares the argument's (immutable) location. -/
def visit_copy (st : FuncState) (regs : Regs) (inst : Inst) :
    Except String (FuncState × Regs) :=
  match (st.instData inst).args.get? 0 with
  | none => .error "copy without an argument"
  | some arg =>
    match (st.instResults inst).get? 0 with
    | none => .error "copy without a result"
    | some dest =>
      .ok ({ st with locations := upd st.locations dest (st.locations arg) }, regs)

/-- `Context::classify_branch`: classify by instruction shape, returning
`(Option (target, side_exit), has_argument)`.  The `debug_assert!`s on the
opcode and the `panic!` on unexpected shapes become errors. -/
def classify_branch (st : FuncState) (inst : Inst) (opcode : Opcode) :
    Except String (Option (Ebb × Bool) × Bool) :=
  match st.instData inst with
  | .indirectJump _ =>
    if opcode = .indirectJumpTableBr then .ok (none, true)
    else .error "classify_branch opcode mismatch"
  | .jump destination _ =>
    if opcode = .jump ∨ opcode = .fallthrough then .ok (some (destination, false), false)
    else .error "classify_branch opcode mismatch"
  | .branch _ destination _ =>
    if opcode = .brz ∨ opcode = .brnz then .ok (some (destination, true), true)
    else .error "classify_branch opcode mismatch"
  | .branchIcmp _ _ _ destination _ =>
    if opcode = .brIcmp then .ok (some (destination, true), true)
    else .error "classify_branch opcode mismatch"
  | .branchInt _ _ destination _ =>
    if opcode = .brif then .ok (some (destination, true), true)
    else .error "classify_branch opcode mismatch"
  | .branchFloat _ _ destination _ =>
    if opcode = .brff then .ok (some (destination, true), true)
    else .error "classify_branch opcode mismatch"
  | _ => .error "Unexpected instruction in classify_branch"

/-- `Context::make_empty_ebb`: create a fresh EBB with no parameters and
no instructions and insert it in the layout immediately before the last
EBB, setting the `new_blocks` flag. -/
def make_empty_ebb (st : FuncState) : Except String (Ebb × FuncState) :=
  let new_ebb := st.nextEbb
  match st.layout.getLast? with
  | none => .error "layout has no last ebb"
  | some last_ebb =>
    .ok (new_ebb,
      { st with
        nextEbb := st.nextEbb + 1
        ebbParams := upd st.ebbParams new_ebb []
        ebbInsts := upd st.ebbInsts new_ebb []
        layout := st.layout.dropLast ++ [new_ebb, last_ebb]
        newBlocks := true })

/-- `Context::rewrite_side_exit`: make the side exit jump to `new_ebb`
with no variable arguments, preserving its fixed (condition) operands.
The source reads the current arguments and rebuilds the instruction with
the replacing builder; a shape mismatch inside an `if let` falls through
silently, an unhandled opcode panics. -/
def rewrite_side_exit (st : FuncState) (inst : Inst) (opcode : Opcode) (new_ebb : Ebb) :
    Except String FuncState :=
  let d := st.instData inst
  match opcode with
  | .brz | .brnz =>
    match d.args.get? 0 with
    | none => .error "branch without an argument"
    | some val =>
      .ok { st with instData := upd st.instData inst (.branch val new_ebb []) }
  | .brIcmp =>
    match d with
    | .branchIcmp cc _ _ _ _ =>
      match d.args.get? 0, d.args.get? 1 with
      | some x, some y =>
        .ok { st with instData := upd st.instData inst (.branchIcmp cc x y new_ebb []) }
      | _, _ => .error "br_icmp without two arguments"
    | _ => .ok st
  | .brif =>
    match d with
    | .branchInt cc _ _ _ =>
      match d.args.get? 0 with
      | none => .error "brif without an argument"
      | some val =>
        .ok { st with instData := upd st.instData inst (.branchInt cc val new_ebb []) }
    | _ => .ok st
  | .brff =>
    match d with
    | .branchFloat cc _ _ _ =>
      match d.args.get? 0 with
      | none => .error "brff without an argument"
      | some val =>
        .ok { st with instData := upd st.instData inst (.branchFloat cc val new_ebb []) }
    | _ => .ok st
  | _ => .error "Unhandled side exit type"

/-- The per-argument fill/spill loop of `Context::visit_branch`, over the
enumerated zip of the target's parameters with the branch arguments:
insert `temp = fill arg` and `dest = spill temp` before the branch, give
`temp` a register of the spill encoding's input class, let `dest` land in
the target parameter's own stack slot, replace argument `k` with `dest`
and free the register. -/
def branch_arg_loop (env : MEnv) (st : FuncState) (regs : Regs) (inst : Inst) :
    List (Nat × Value × Value) → Except String (FuncState × Regs)
  | [] => .ok (st, regs)
  | (k, arg, target_arg) :: rest =>
    let temp := st.nextValue
    let dest := st.nextValue + 1
    let rc := env.spill_ins_rc
    match regs.take env.classes rc with
    | (none, _) => .error "register class exhausted"
    | (some reg, regs1) =>
      let st1 := { st with
        nextValue := st.nextValue + 2
        valueType := upd (upd st.valueType temp (st.valueType arg)) dest (st.valueType arg)
        locations := upd (upd st.locations temp (.reg reg)) dest (st.locations target_arg)
        instData := upd st.instData inst ((st.instData inst).setArg k dest)
        emitted := st.emitted ++ [.fillBefore inst temp arg, .spillBefore inst dest temp] }
      branch_arg_loop env st1 (regs1.free rc reg) inst rest

/-- `Context::visit_branch`.  An indirect jump (`target_info = none`)
falls straight through the `if let` and nothing at all is done to it.
Otherwise, when the branch is a side exit to a target with parameters, a
fresh EBB is created before the last one, the side exit is rewritten to
jump there with no arguments, its own operands are register-assigned via
`visit_plain_inst`, a `jump target(args)` is appended to the new EBB and
the fill/spill loop runs on that jump; otherwise the loop runs on the
branch itself.  Final cursor restoration is not modelled. -/
def visit_branch (env : MEnv) (st : FuncState) (regs : Regs) (inst : Inst)
    (opcode : Opcode) : Except String (FuncState × Regs) :=
  match classify_branch st inst opcode with
  | .error e => .error e
  | .ok (target_info, has_argument) =>
    match target_info with
    | none => .ok (st, regs)
    | some (target, side_exit) =>
      let new_block := side_exit && decide (0 < (st.ebbParams target).length)
      if new_block then
        let jump_args := (st.instData inst).varargs
        match make_empty_ebb st with
        | .error e => .error e
        | .ok (new_ebb, st1) =>
          match rewrite_side_exit st1 inst opcode new_ebb with
          | .error e => .error e
          | .ok st2 =>
            match (if has_argument then visit_plain_inst env st2 regs inst opcode
                   else .ok (st2, regs)) with
            | .error e => .error e
            | .ok (st3, regs3) =>
              let jmp := st3.nextInst
              let st4 := { st3 with
                nextInst := st3.nextInst + 1
                instData := upd st3.instData jmp (.jump target jump_args)
                instOpcode := upd st3.instOpcode jmp .jump
                instResults := upd st3.instResults jmp []
                encodings := upd st3.encodings jmp none
                ebbInsts := upd st3.ebbInsts new_ebb (st3.ebbInsts new_ebb ++ [jmp])
                emitted := st3.emitted ++ [.jumpInserted jmp new_ebb target jump_args] }
              let arginfo := (((st4.ebbParams target).zip (st4.instData jmp).args).enum.map
                (fun p => (p.1, p.2.2, p.2.1)))
              branch_arg_loop env st4 regs3 jmp arginfo
      else
        match (if has_argument then visit_plain_inst env st regs inst opcode
               else .ok (st, regs)) with
        | .error e => .error e
        | .ok (st1, regs1) =>
          let arginfo := (((st1.ebbParams target).zip (st1.instData inst).args).enum.map
            (fun p => (p.1, p.2.2, p.2.1)))
          branch_arg_loop env st1 regs1 inst arginfo

/-- The per-argument loop of `Context::visit_terminator` for returns:
`temp = fill val` before the instruction, the temp pinned to the ABI
register and substituted for the argument; a non-register return ABI
location panics. -/
def return_arg_loop (st : FuncState) (inst : Inst) :
    List (Nat × Value × AbiParam) → Except String FuncState
  | [] => .ok st
  | (k, val, abi) :: rest =>
    let temp := st.nextValue
    match abi.location with
    | .reg r =>
      let st1 := { st with
        nextValue := st.nextValue + 1
        valueType := upd st.valueType temp (st.valueType val)
        locations := upd st.locations temp (.reg r)
        instData := upd st.instData inst ((st.instData inst).setArg k temp)
        emitted := st.emitted ++ [.fillBefore inst temp val] }
      return_arg_loop st1 inst rest
    | _ => .error "Only register returns"

/-- `Context::visit_terminator`: `Return`/`FallthroughReturn` fill their
arguments into the ABI registers, `Trap` is a no-op, anything else is
unreachable. -/
def visit_terminator (st : FuncState) (regs : Regs) (inst : Inst) (opcode : Opcode) :
    Except String (FuncState × Regs) :=
  match opcode with
  | .ret | .fallthroughReturn =>
    let return_info := (((st.instData inst).args.zip st.sigReturns).enum.map
      (fun p => (p.1, p.2.1, p.2.2)))
    match return_arg_loop st inst return_info with
    | .error e => .error e
    | .ok st1 => .ok (st1, regs)
  | .trap => .ok (st, regs)
  | _ => .error "unreachable opcode in visit_terminator"

/-- `Context::visit_call`: calls are not implemented and panic. -/
def visit_call (_st : FuncState) (_regs : Regs) (_inst : Inst) :
    Except String (FuncState × Regs) :=
  .error "Calls not yet implemented"

/-- `Context::visit_inst`: dispatch on the opcode family.  The
`debug_assert!`s excluding `Fallthrough` and the regmove family become
errors; `Spill`/`Fill` inserted by the allocator itself are skipped. -/
def visit_inst (env : MEnv) (st : FuncState) (regs : Regs) (inst : Inst) :
    Except String (FuncState × Regs) :=
  let opcode := st.instOpcode inst
  if opcode = .fallthrough then .error "Fallthrough must have been lowered"
  else if opcode = .copy then visit_copy st regs inst
  else if opcode.is_branch then visit_branch env st regs inst opcode
  else if opcode.is_terminator then visit_terminator st regs inst opcode
  else if opcode.is_call then visit_call st regs inst
  else if opcode = .spill ∨ opcode = .fill then .ok (st, regs)
  else if opcode = .regmove ∨ opcode = .regfill ∨ opcode = .regspill ∨
          opcode = .copySpecial then
    .error "unexpected opcode at this stage"
  else visit_plain_inst env st regs inst opcode

/-- The parameter loop of `Context::visit_entry_block`, over the
pre-collected zip of the entry EBB's parameters with the signature: a
register parameter is replaced by a fresh register-resident value
(`replace_ebb_param`), spilled back into the old name at the EBB top, and
the old name gets a fresh stack slot; a stack parameter must already have
a stack location; `Unassigned` panics. -/
def visit_entry_block_params (st : FuncState) (entry : Ebb) :
    List (Value × AbiParam) → Except String FuncState
  | [] => .ok st
  | (param, abi) :: rest =>
    match abi.location with
    | .reg r =>
      let new_param := st.nextValue
      let st1 := { st with
        nextValue := st.nextValue + 1
        valueType := upd st.valueType new_param abi.value_type
        ebbParams := upd st.ebbParams entry
          ((st.ebbParams entry).map (fun p => if p = param then new_param else p))
        locations := upd st.locations new_param (.reg r)
        emitted := st.emitted ++ [.spillEntry param new_param] }
      let (ss, st2) := make_spill_slot st1 abi.value_type
      visit_entry_block_params
        { st2 with locations := upd st2.locations param (.stack ss) } entry rest
    | .stack _ =>
      if locIsStack (st.locations param) then
        visit_entry_block_params st entry rest
      else .error "entry stack parameter without a stack location"
    | .unassigned => .error "Should not happen"

/-- `Context::visit_entry_block`: process the zip of the entry EBB's
parameters with the signature parameters, collected up front. -/
def visit_entry_block (st : FuncState) (entry : Ebb) : Except String FuncState :=
  visit_entry_block_params st entry ((st.ebbParams entry).zip st.sigParams)

/-- The slot-assignment loop of `Context::visit_other_blocks`: every
parameter of every non-entry EBB receives a fresh spill slot as its
location; the list is the concatenation of those parameter lists. -/
def assign_param_slots (st : FuncState) : List Value → FuncState
  | [] => st
  | p :: rest =>
    let (ss, st1) := make_spill_slot st (st.valueType p)
    assign_param_slots { st1 with locations := upd st1.locations p (.stack ss) } rest

/-! ## The live-range splitting pass (`splitting.rs`)

A basic block (`BB`) is represented by the control-transfer instruction
that terminates it, so `BB = Inst`.  The collaborators the pass consults
(the dominator tree, the BB graph lookups, program points, the CFG
predecessor iterator, `value_def`) are carried in an environment record;
during one `find_redefinition` call none of them is mutated by the pass
except the data the environment does not cover. -/

abbrev BB := Nat

/-- Definition site of a value (`ir::ValueDef`). -/
inductive ValueDef where
  | result (inst : Inst) (num : Nat)
  | param (ebb : Ebb) (num : Nat)
deriving DecidableEq

/-- Collaborator data consumed by the splitting pass: `bb_idom` is
`Context::bb_idom`, `inst_bb` is `Context::inst_bb`, `ebb_bb` the first
BB of an EBB, `bb_ebb` the containing EBB, `inst_pp`/`ebb_pp` the
program-point order used through `layout.cmp` (smaller is earlier), and
`preds` the terminators yielded by `cfg.pred_iter`. -/
structure SEnv where
  bb_idom : BB → Option BB
  value_def : Value → ValueDef
  inst_bb : Inst → BB
  ebb_bb : Ebb → BB
  bb_ebb : BB → Ebb
  inst_pp : Inst → Nat
  ebb_pp : Ebb → Nat
  preds : Ebb → List Inst

/-- The function state the splitting pass mutates: EBB parameter lists,
instruction argument lists, value types and the fresh-value counter. -/
structure SplitState where
  ebbParams : Ebb → List Value
  instArgs : Inst → List Value
  valueType : Value → Nat
  nextValue : Nat

/-- The defining BB and program point of a renamed value's definition,
as computed from `dfg.value_def` inside `find_redefinition`. -/
def defn_bb_pp (env : SEnv) (nd : Value) : BB × Nat :=
  match env.value_def nd with
  | .result defn_inst _ => (env.inst_bb defn_inst, env.inst_pp defn_inst)
  | .param defn_ebb _ => (env.ebb_bb defn_ebb, env.ebb_pp defn_ebb)

/-- The inner fold of `find_redefinition` over `new_names`: find the
definition inside `target_bb` with the maximal program point, counting
only definitions strictly preceding the use when `target_bb` is the BB of
the use.  The accumulator is `(found, max_defn_pp)`, with `max_defn_pp`
initialised to the program point of `target_bb`'s terminator. -/
def scan_for_defn (env : SEnv) (use_bb target_bb : BB) (use_pp : Nat) :
    List Value → Option Value × Nat → Option Value × Nat
  | [], acc => acc
  | nd :: rest, (found, max_pp) =>
    let (defn_bb, defn_pp) := defn_bb_pp env nd
    let acc1 : Option Value × Nat :=
      if defn_bb = target_bb then
        if target_bb ≠ use_bb ∨ defn_pp < use_pp then
          if found.isNone ∨ max_pp < defn_pp then (some nd, defn_pp)
          else (found, max_pp)
        else (found, max_pp)
      else (found, max_pp)
    scan_for_defn env use_bb target_bb use_pp rest acc1

/-- The predecessor loop of the phi-insertion arm of `find_redefinition`
(`for BasicBlock { inst, .. } in self.cfg.pred_iter(target_ebb)`): append
the original `name` as an extra argument on every predecessor's
terminator and collect those terminators as new uses, in order. -/
def append_pred_args (st : SplitState) (name : Value) :
    List Inst → SplitState × List Inst
  | [] => (st, [])
  | p :: rest =>
    let st1 := { st with instArgs := upd st.instArgs p (st.instArgs p ++ [name]) }
    let (st2, rest_uses) := append_pred_args st1 name rest
    (st2, p :: rest_uses)

/-- The loop body of `Context::find_redefinition`, walking `target_bb` up
the BB immediate-dominator chain: search the current BB for the closest
redefinition; if none and there is an immediate dominator, either insert
a phi when the BB is in the iterated dominance frontier or continue at
the dominator; if there is no dominator, stop with no result.  The walk
is fuelled; the chain is finite in the source, so enough fuel makes the
fuel case unreachable (`none` result). -/
def find_redefinition_walk (env : SEnv) (st : SplitState) (use_bb : BB)
    (use_pp : Nat) (name : Value) (new_names : List Value) (idf : List BB) :
    Nat → BB → Option (Option Value × Option (Value × List Inst) × SplitState)
  | 0, _ => none
  | fuel+1, target_bb =>
    let scanned := scan_for_defn env use_bb target_bb use_pp new_names
      (none, env.inst_pp target_bb)
    match scanned.1 with
    | some nd => some (some nd, none, st)
    | none =>
      match env.bb_idom target_bb with
      | none => some (none, none, st)
      | some idom =>
        if target_bb ∈ idf then
          let target_ebb := env.bb_ebb target_bb
          let phi_name := st.nextValue
          let st1 := { st with
            nextValue := st.nextValue + 1
            valueType := upd st.valueType phi_name (st.valueType name)
            ebbParams := upd st.ebbParams target_ebb
              (st.ebbParams target_ebb ++ [phi_name]) }
          let (st2, new_uses) := append_pred_args st1 name (env.preds target_ebb)
          some (some phi_name, some (phi_name, new_uses), st2)
        else
          find_redefinition_walk env st use_bb use_pp name new_names idf fuel idom

/-- `Context::find_redefinition`: the walk started at the BB of the use,
with the use's program point fixed up front. -/
def find_redefinition (env : SEnv) (st : SplitState) (use_inst : Inst)
    (name : Value) (new_names : List Value) (idf : List BB) (fuel : Nat) :
    Option (Option Value × Option (Value × List Inst) × SplitState) :=
  find_redefinition_walk env st (env.inst_bb use_inst) (env.inst_pp use_inst)
    name new_names idf fuel (env.inst_bb use_inst)

/-- The argument-replacement loop of `Context::rename_uses`
(`for arg in inst_args_mut(use_inst) { if *arg == r.value { *arg = new_defn } }`). -/
def replace_renamed_args (args : List Value) (value new_defn : Value) : List Value :=
  args.map (fun arg => if arg = value then new_defn else arg)

/-- One use-instruction step of `Context::rename_uses` after
`find_redefinition` returned: when a new definition was found, run the
replacement loop over the use's arguments. -/
def rename_one_use (st : SplitState) (use_inst : Inst) (value : Value) :
    Option Value → SplitState
  | some new_defn =>
    let args1 := replace_renamed_args (st.instArgs use_inst) value new_defn
    { st with instArgs := upd st.instArgs use_inst args1 }
  | none => st

/-- The worklist step of `Context::rename_uses` for one use: walk for a
redefinition, then replace; the result also carries the optional
`(phi, new_uses)` information appended to the table and worklist. -/
def rename_uses_step (env : SEnv) (st : SplitState) (use_inst : Inst)
    (name : Value) (new_names : List Value) (idf : List BB) (fuel : Nat) :
    Option (SplitState × Option (Value × List Inst)) :=
  match find_redefinition env st use_inst name new_names idf fuel with
  | none => none
  | some (found, inserted, st1) => some (rename_one_use st1 use_inst name found, inserted)

/-! ### Phase 1 of splitting: copies around calls (`inst_insert_temps`) -/

/-- A value live through an instruction together with its liveness
affinity test (`lv.affinity.is_reg()`). -/
structure LiveValue where
  value : Value
  is_reg : Bool
deriving DecidableEq

/-- A rename-table entry (`struct RenamedValue`). -/
structure RenamedValue where
  value : Value
  new_names : List Value
  uses : List Inst
deriving DecidableEq

/-- The rename table: a sparse map keyed by the original value, stored as
its dense entry list (`SparseMap` pushes on insert). -/
abbrev Renamed := List RenamedValue

/-- Lookup by key (`renamed.get_mut(v)` / `renamed.get(v)`). -/
def renamed_get (renamed : Renamed) (v : Value) : Option RenamedValue :=
  renamed.find? (fun r => r.value == v)

/-- Record a post-call copy under key `v` (`inst_insert_temps`, tail of
the second loop): push `copy` onto the entry's `new_names`, inserting a
fresh entry when the key is absent. -/
def renamed_record (renamed : Renamed) (v copy : Value) : Renamed :=
  if (renamed.find? (fun r => r.value == v)).isSome then
    renamed.map (fun r =>
      if r.value == v then { r with new_names := r.new_names ++ [copy] } else r)
  else
    renamed ++ [{ value := v, new_names := [copy], uses := [] }]

/-- The copy-insertion state of `inst_insert_temps`: the fresh-value
counter and the copies inserted before and after the call, in program
order.  `copies_before` records `(temp, source)` for `temp = copy source`
and `copies_after` records `(copy, temp)` for `copy = copy temp`. -/
structure CopyState where
  nextValue : Nat
  copies_before : List (Value × Value)
  copies_after : List (Value × Value)
deriving DecidableEq

/-- First loop of `inst_insert_temps`: for every live-through value with
register affinity, insert `temp = copy lv.value` before the call and
collect the temps in order. -/
def make_temps (st : CopyState) : List LiveValue → List Value × CopyState
  | [] => ([], st)
  | lv :: rest =>
    if lv.is_reg then
      let temp := st.nextValue
      let st1 := { st with
        nextValue := st.nextValue + 1
        copies_before := st.copies_before ++ [(temp, lv.value)] }
      let (temps, st2) := make_temps st1 rest
      (temp :: temps, st2)
    else
      make_temps st rest

/-- Second loop of `inst_insert_temps`: for every live-through value with
register affinity (same order), insert `copy = copy temp` after the call
and record `copy` in the rename table under the original value.  The
indexing `temps[i]` panics when the temp list is too short. -/
def make_copies (st : CopyState) (renamed : Renamed) :
    List Value → List LiveValue → Except String (CopyState × Renamed)
  | _, [] => .ok (st, renamed)
  | temps, lv :: rest =>
    if lv.is_reg then
      match temps with
      | [] => .error "temps index out of bounds"
      | temp :: trest =>
        let copy := st.nextValue
        let st1 := { st with
          nextValue := st.nextValue + 1
          copies_after := st.copies_after ++ [(copy, temp)] }
        make_copies st1 (renamed_record renamed lv.value copy) trest rest
    else
      make_copies st renamed temps rest

/-- `Context::inst_insert_temps`: when the instruction is a call
(`call_signature` is present), copy every register-affine live-through
value into a temp before the call, copy each temp back out after the
call, and record the post-call copies in the rename table. -/
def inst_insert_temps (st : CopyState) (renamed : Renamed)
    (call_sig : Option Nat) (throughs : List LiveValue) :
    Except String (CopyState × Renamed) :=
  if call_sig.isSome then
    let (temps, st1) := make_temps st throughs
    make_copies st1 renamed temps throughs
  else
    .ok (st, renamed)

/-! ## Concrete states used to evaluate the passes on small programs -/

/-- An empty function state most concrete programs are built from. -/
def baseState : FuncState where
  instData := fun _ => .multi []
  instOpcode := fun _ => .plainOp
  instResults := fun _ => []
  encodings := fun _ => none
  ebbParams := fun _ => []
  ebbInsts := fun _ => []
  layout := []
  locations := fun _ => .unassigned
  valueType := fun _ => 0
  sigParams := []
  sigReturns := []
  nextValue := 100
  nextInst := 100
  nextEbb := 100
  nextSlot := 100
  newBlocks := false
  emitted := []

/-- A small ISA: one register class `0` holding units `0..3`, spills
wanting class `0` inputs, and no flags types. -/
def baseEnv : MEnv where
  classes := fun _ => [0, 1, 2, 3]
  spill_ins_rc := 0
  type_flags := fun _ => false

/-! ## Characterizations of the `visit_plain_inst` phases

The following sets and lemmas describe what each phase of the plain
instruction rewriting does to the free register set.  They are the
backbone of the tied-operand and register-balance theorems. -/

/-- Units of the `FixedReg`/`FixedTied` input constraints (what phase 1
reserves). -/
def fixedInUnits : List OperandConstraint → Finset Nat
  | [] => ∅
  | c :: rest =>
    match c.kind with
    | .fixedReg r => insert r (fixedInUnits rest)
    | .fixedTied r => insert r (fixedInUnits rest)
    | _ => fixedInUnits rest

/-- Units of the `FixedReg` output constraints (what phase 4 reserves). -/
def fixedOutUnits : List OperandConstraint → Finset Nat
  | [] => ∅
  | c :: rest =>
    match c.kind with
    | .fixedReg r => insert r (fixedOutUnits rest)
    | _ => fixedOutUnits rest

/-- Registers of the untied `reg_args` entries (freed by phase 3). -/
def nontiedRegs : List RegArg → Finset Nat
  | [] => ∅
  | ra :: rest =>
    if ra.is_tied then nontiedRegs rest else insert ra.reg (nontiedRegs rest)

/-- Registers of the tied `reg_args` entries (held until the spills). -/
def tiedRegs : List RegArg → Finset Nat
  | [] => ∅
  | ra :: rest =>
    if ra.is_tied then insert ra.reg (tiedRegs rest) else tiedRegs rest

/-- Registers of the `reg_results` entries (freed by phase 6). -/
def resultRegs : List RegResult → Finset Nat
  | [] => ∅
  | rr :: rest => insert rr.reg (resultRegs rest)

theorem mem_fixedInUnits {cons : List OperandConstraint} {u : Nat} :
    u ∈ fixedInUnits cons ↔ ∃ j c, cons.get? j = some c ∧
      (c.kind = ConstraintKind.fixedReg u ∨ c.kind = ConstraintKind.fixedTied u) := by
  induction cons with
  | nil => simp [fixedInUnits]
  | cons c rest ih =>
    constructor
    · intro hu
      cases hk : c.kind with
      | fixedReg r =>
        rw [fixedInUnits, hk] at hu
        rcases Finset.mem_insert.mp hu with rfl | hu'
        · exact ⟨0, c, rfl, Or.inl hk⟩
        · obtain ⟨j, c', hj, hor⟩ := ih.mp hu'
          exact ⟨j + 1, c', by simpa using hj, hor⟩
      | fixedTied r =>
        rw [fixedInUnits, hk] at hu
        rcases Finset.mem_insert.mp hu with rfl | hu'
        · exact ⟨0, c, rfl, Or.inr hk⟩
        · obtain ⟨j, c', hj, hor⟩ := ih.mp hu'
          exact ⟨j + 1, c', by simpa using hj, hor⟩
      | reg =>
        rw [fixedInUnits, hk] at hu
        obtain ⟨j, c', hj, hor⟩ := ih.mp hu
        exact ⟨j + 1, c', by simpa using hj, hor⟩
      | tied i =>
        rw [fixedInUnits, hk] at hu
        obtain ⟨j, c', hj, hor⟩ := ih.mp hu
        exact ⟨j + 1, c', by simpa using hj, hor⟩
      | stack =>
        rw [fixedInUnits, hk] at hu
        obtain ⟨j, c', hj, hor⟩ := ih.mp hu
        exact ⟨j + 1, c', by simpa using hj, hor⟩
    · rintro ⟨j, c', hj, hor⟩
      cases j with
      | zero =>
        simp only [List.get?] at hj
        cases hj
        rcases hor with hk | hk <;> rw [fixedInUnits, hk] <;> exact Finset.mem_insert_self _ _
      | succ j' =>
        simp only [List.get?] at hj
        have hu' : u ∈ fixedInUnits rest := ih.mpr ⟨j', c', hj, hor⟩
        rw [fixedInUnits]
        cases hk : c.kind <;> simp [hk, hu', Finset.mem_insert]

theorem mem_fixedOutUnits {cons : List OperandConstraint} {u : Nat} :
    u ∈ fixedOutUnits cons ↔ ∃ j c, cons.get? j = some c ∧
      c.kind = ConstraintKind.fixedReg u := by
  induction cons with
  | nil => simp [fixedOutUnits]
  | cons c rest ih =>
    constructor
    · intro hu
      cases hk : c.kind with
      | fixedReg r =>
        rw [fixedOutUnits, hk] at hu
        rcases Finset.mem_insert.mp hu with rfl | hu'
        · exact ⟨0, c, rfl, hk⟩
        · obtain ⟨j, c', hj, hc⟩ := ih.mp hu'
          exact ⟨j + 1, c', by simpa using hj, hc⟩
      | fixedTied r =>
        rw [fixedOutUnits, hk] at hu
        obtain ⟨j, c', hj, hc⟩ := ih.mp hu
        exact ⟨j + 1, c', by simpa using hj, hc⟩
      | reg =>
        rw [fixedOutUnits, hk] at hu
        obtain ⟨j, c', hj, hc⟩ := ih.mp hu
        exact ⟨j + 1, c', by simpa using hj, hc⟩
      | tied i =>
        rw [fixedOutUnits, hk] at hu
        obtain ⟨j, c', hj, hc⟩ := ih.mp hu
        exact ⟨j + 1, c', by simpa using hj, hc⟩
      | stack =>
        rw [fixedOutUnits, hk] at hu
        obtain ⟨j, c', hj, hc⟩ := ih.mp hu
        exact ⟨j + 1, c', by simpa using hj, hc⟩
    · rintro ⟨j, c', hj, hc⟩
      cases j with
      | zero =>
        simp only [List.get?] at hj
        cases hj
        rw [fixedOutUnits, hc]
        exact Finset.mem_insert_self _ _
      | succ j' =>
        simp only [List.get?] at hj
        have hu' : u ∈ fixedOutUnits rest := ih.mpr ⟨j', c', hj, hc⟩
        rw [fixedOutUnits]
        cases hk : c.kind <;> simp [hk, hu', Finset.mem_insert]

theorem mem_nontiedRegs {ras : List RegArg} {r : Nat} :
    r ∈ nontiedRegs ras ↔ ∃ e ∈ ras, e.is_tied = false ∧ e.reg = r := by
  induction ras with
  | nil => simp [nontiedRegs]
  | cons ra rest ih =>
    by_cases ht : ra.is_tied
    · rw [nontiedRegs, if_pos ht, ih]
      constructor
      · rintro ⟨e, he, h1, h2⟩; exact ⟨e, List.mem_cons_of_mem _ he, h1, h2⟩
      · rintro ⟨e, he, h1, h2⟩
        rcases List.mem_cons.mp he with rfl | he'
        · rw [ht] at h1; cases h1
        · exact ⟨e, he', h1, h2⟩
    · rw [nontiedRegs, if_neg ht]
      constructor
      · intro hr
        rcases Finset.mem_insert.mp hr with rfl | hr'
        · exact ⟨ra, List.mem_cons_self _ _, Bool.not_eq_true _ ▸ by simpa using ht, rfl⟩
        · obtain ⟨e, he, h1, h2⟩ := ih.mp hr'
          exact ⟨e, List.mem_cons_of_mem _ he, h1, h2⟩
      · rintro ⟨e, he, h1, h2⟩
        rcases List.mem_cons.mp he with rfl | he'
        · exact h2 ▸ Finset.mem_insert_self _ _
        · exact Finset.mem_insert_of_mem (ih.mpr ⟨e, he', h1, h2⟩)

theorem mem_tiedRegs {ras : List RegArg} {r : Nat} :
    r ∈ tiedRegs ras ↔ ∃ e ∈ ras, e.is_tied = true ∧ e.reg = r := by
  induction ras with
  | nil => simp [tiedRegs]
  | cons ra rest ih =>
    by_cases ht : ra.is_tied
    · rw [tiedRegs, if_pos ht]
      constructor
      · intro hr
        rcases Finset.mem_insert.mp hr with rfl | hr'
        · exact ⟨ra, List.mem_cons_self _ _, ht, rfl⟩
        · obtain ⟨e, he, h1, h2⟩ := ih.mp hr'
          exact ⟨e, List.mem_cons_of_mem _ he, h1, h2⟩
      · rintro ⟨e, he, h1, h2⟩
        rcases List.mem_cons.mp he with rfl | he'
        · exact h2 ▸ Finset.mem_insert_self _ _
        · exact Finset.mem_insert_of_mem (ih.mpr ⟨e, he', h1, h2⟩)
    · rw [tiedRegs, if_neg ht, ih]
      constructor
      · rintro ⟨e, he, h1, h2⟩; exact ⟨e, List.mem_cons_of_mem _ he, h1, h2⟩
      · rintro ⟨e, he, h1, h2⟩
        rcases List.mem_cons.mp he with rfl | he'
        · exact absurd h1 ht
        · exact ⟨e, he', h1, h2⟩

theorem mem_resultRegs {rrs : List RegResult} {r : Nat} :
    r ∈ resultRegs rrs ↔ ∃ rr ∈ rrs, rr.reg = r := by
  induction rrs with
  | nil => simp [resultRegs]
  | cons rr rest ih =>
    rw [resultRegs]
    constructor
    · intro hr
      rcases Finset.mem_insert.mp hr with rfl | hr'
      · exact ⟨rr, List.mem_cons_self _ _, rfl⟩
      · obtain ⟨e, he, h2⟩ := ih.mp hr'
        exact ⟨e, List.mem_cons_of_mem _ he, h2⟩
    · rintro ⟨e, he, h2⟩
      rcases List.mem_cons.mp he with rfl | he'
      · exact h2 ▸ Finset.mem_insert_self _ _
      · exact Finset.mem_insert_of_mem (ih.mpr ⟨e, he', h2⟩)

/-- A successful `Regs.take` picks a member of the set and erases it. -/
theorem Regs.take_some {s : Regs} {classes : RegClassId → List RegUnit}
    {rc : RegClassId} {r : RegUnit} {s1 : Regs}
    (h : s.take classes rc = (some r, s1)) :
    r ∈ s.registers ∧ s1.registers = s.registers.erase r := by
  unfold Regs.take at h
  cases hfind : (classes rc).find? (fun x => decide (x ∈ s.registers)) with
  | none => rw [hfind] at h; cases h
  | some r' =>
    rw [hfind] at h
    obtain ⟨h1, h2⟩ := Prod.mk.injEq .. ▸ h
    cases h1
    refine ⟨?_, by rw [← h2]⟩
    have := List.find?_some hfind
    exact of_decide_eq_true this

/-- Phase 1 erases exactly the fixed input units. -/
theorem reserve_fixed_ins_list_registers (cons : List OperandConstraint) (regs : Regs) :
    (reserve_fixed_ins_list cons regs).registers =
      regs.registers \ fixedInUnits cons := by
  induction cons generalizing regs with
  | nil => simp [reserve_fixed_ins_list, fixedInUnits]
  | cons c rest ih =>
    rw [reserve_fixed_ins_list]
    cases hk : c.kind <;>
      simp only [hk, fixedInUnits, Regs.take_specific, ih] <;>
      try rfl
    · ext x
      simp only [Finset.mem_sdiff, Finset.mem_erase, Finset.mem_insert]
      tauto
    · ext x
      simp only [Finset.mem_sdiff, Finset.mem_erase, Finset.mem_insert]
      tauto

/-- Phase 4 erases exactly the fixed (untied) output units. -/
theorem reserve_fixed_outs_list_registers (cons : List OperandConstraint) (regs : Regs) :
    (reserve_fixed_outs_list cons regs).registers =
      regs.registers \ fixedOutUnits cons := by
  induction cons generalizing regs with
  | nil => simp [reserve_fixed_outs_list, fixedOutUnits]
  | cons c rest ih =>
    rw [reserve_fixed_outs_list]
    cases hk : c.kind <;>
      simp only [hk, fixedOutUnits, Regs.take_specific, ih] <;>
      try rfl
    ext x
    simp only [Finset.mem_sdiff, Finset.mem_erase, Finset.mem_insert]
    tauto

/-- Phase 3 frees exactly the untied input registers. -/
theorem emit_fills_registers (env : MEnv) (st : FuncState) (regs : Regs)
    (inst : Inst) (ras : List RegArg) :
    ((emit_fills env st regs inst ras).2).registers =
      regs.registers ∪ nontiedRegs ras := by
  induction ras generalizing st regs with
  | nil => simp [emit_fills, nontiedRegs]
  | cons ra rest ih =>
    rw [emit_fills]
    by_cases ht : ra.is_tied
    · simp [ht, nontiedRegs, ih]
    · simp [ht, nontiedRegs, ih, Regs.free, Finset.insert_union, Finset.union_insert]

/-- Phase 6 frees exactly the output registers. -/
theorem emit_spills_registers (env : MEnv) (st : FuncState) (regs : Regs)
    (inst : Inst) (rrs : List RegResult) :
    ((emit_spills env st regs inst rrs).2).registers =
      regs.registers ∪ resultRegs rrs := by
  induction rrs generalizing st regs with
  | nil => simp [emit_spills, resultRegs]
  | cons rr rest ih =>
    rw [emit_spills]
    simp only [resultRegs, ih, Regs.free]
    rw [Finset.insert_union, Finset.union_insert]

/-- Phase 3 does not change the instruction results. -/
theorem emit_fills_instResults (env : MEnv) (st : FuncState) (regs : Regs)
    (inst : Inst) (ras : List RegArg) :
    ((emit_fills env st regs inst ras).1).instResults = st.instResults := by
  induction ras generalizing st regs with
  | nil => simp [emit_fills]
  | cons ra rest ih =>
    rw [emit_fills]
    by_cases ht : env.type_flags (st.valueType ra.arg) <;> simp [ht, ih]

/-- What one `reg_args` entry produced by `assign_ins` satisfies,
relative to the set `T` of registers the phase took from the free set. -/
def inEntryProp (T : Finset Nat) (e : RegArg) : ConstraintKind → Prop
  | .reg => e.reg ∈ T ∧ e.is_tied = false
  | .tied _ => e.reg ∈ T ∧ e.is_tied = true
  | .fixedReg u => e.reg = u ∧ e.is_tied = false
  | .fixedTied u => e.reg = u ∧ e.is_tied = true
  | .stack => False

theorem inEntryProp_mono {T T' : Finset Nat} {e : RegArg} {k : ConstraintKind}
    (hs : T ⊆ T') (h : inEntryProp T e k) : inEntryProp T' e k := by
  cases k <;> simp only [inEntryProp] at h ⊢ <;> tauto

/-- What one `reg_results` entry produced by `assign_outs` satisfies,
relative to the `reg_args` list and the set `OT` of registers the phase
took from the free set. -/
def outEntryProp (ras : List RegArg) (OT : Finset Nat) (rr : RegResult) :
    ConstraintKind → Prop
  | .reg => rr.reg ∈ OT
  | .fixedReg u => rr.reg = u
  | .fixedTied u => rr.reg = u
  | .tied i => ∃ e, ras.find? (fun x => x.k == i) = some e ∧ e.is_tied = true ∧
      rr.reg = e.reg ∧ rr.rc = e.rc
  | .stack => False

theorem outEntryProp_mono {ras : List RegArg} {OT OT' : Finset Nat}
    {rr : RegResult} {k : ConstraintKind}
    (hs : OT ⊆ OT') (h : outEntryProp ras OT rr k) : outEntryProp ras OT' rr k := by
  cases k <;> simp only [outEntryProp] at h ⊢ <;> tauto

/-- In a `reg_args` list with strictly increasing indices (as `assign_ins`
builds), the lookup done by a `Tied` output finds exactly the member with
that index. -/
theorem find_k_of_pairwise {ras : List RegArg} {e : RegArg}
    (hp : List.Pairwise (fun a b => a.k < b.k) ras) (he : e ∈ ras) :
    ras.find? (fun x => x.k == e.k) = some e := by
  induction ras with
  | nil => cases he
  | cons a rest ih =>
    rcases List.mem_cons.mp he with rfl | he'
    · exact List.find?_cons_of_pos _ (by simp)
    · have ha : a.k < e.k := (List.pairwise_cons.mp hp).1 e he'
      have hne : ¬((fun x : RegArg => x.k == e.k) a = true) := by
        simp [Nat.ne_of_lt ha]
      have hstep : List.find? (fun x : RegArg => x.k == e.k) (a :: rest) =
          List.find? (fun x : RegArg => x.k == e.k) rest :=
        List.find?_cons_of_neg _ hne
      exact hstep.trans (ih (List.pairwise_cons.mp hp).2 he')

/-- Specification of `assign_ins`: a successful run erases a set `T` of
registers from the free set; the recorded `reg_args` entries match their
constraints, one entry per non-`Stack` constraint index in the processed
range, with strictly increasing indices. -/
theorem assign_ins_spec {env : MEnv} {st : FuncState} {cc : OperandConstraints}
    {args : List Value} {k0 : Nat} {regs : Regs} {ras : List RegArg} {regs' : Regs}
    (h : assign_ins env st (some cc) args k0 regs = .ok (ras, regs')) :
    ∃ T : Finset Nat,
      regs'.registers = regs.registers \ T ∧
      T ⊆ regs.registers ∧
      (∀ r ∈ T, ∃ e ∈ ras, e.reg = r) ∧
      (∀ e ∈ ras, ∃ c, cc.ins.get? e.k = some c ∧ e.rc = c.regclass ∧
        inEntryProp T e c.kind) ∧
      (∀ j, k0 ≤ j → j < k0 + args.length →
        ∃ c, cc.ins.get? j = some c ∧
          (c.kind = ConstraintKind.stack ∨ ∃ e ∈ ras, e.k = j)) ∧
      (∀ e ∈ ras, k0 ≤ e.k ∧ e.k < k0 + args.length) ∧
      List.Pairwise (fun a b => a.k < b.k) ras := by
  induction args generalizing k0 regs ras regs' with
  | nil =>
    rw [assign_ins] at h
    obtain ⟨h1, h2⟩ := Prod.mk.injEq .. ▸ Except.ok.injEq .. ▸ h
    subst h1; subst h2
    refine ⟨∅, by simp, by simp, by simp, by simp, ?_, by simp, by simp⟩
    intro j hj1 hj2
    simp only [List.length_nil] at hj2
    omega
  | cons arg rest ih =>
    rw [assign_ins] at h
    by_cases hloc : (locIsStack (st.locations arg) ||
        env.type_flags (st.valueType arg)) = true
    · rw [if_pos hloc] at h
      cases hg : cc.ins.get? k0 with
      | none => rw [hg] at h; dsimp only at h; cases h
      | some constraint =>
        rw [hg] at h
        dsimp only at h
        by_cases hstk : constraint.kind = ConstraintKind.stack
        · rw [if_pos hstk] at h
          obtain ⟨T, h1, h2, h3, h4, h5, h6, h7⟩ := ih h
          refine ⟨T, h1, h2, h3, h4, ?_, ?_, h7⟩
          · intro j hj1 hj2
            by_cases hjk : j = k0
            · subst hjk; exact ⟨constraint, hg, Or.inl hstk⟩
            · have : k0 + 1 ≤ j := by omega
              have hj2' : j < (k0 + 1) + rest.length := by
                simp only [List.length_cons] at hj2; omega
              exact h5 j this hj2'
          · intro e he
            have := h6 e he
            simp only [List.length_cons]
            omega
        · rw [if_neg hstk] at h
          -- the register-acquisition step, by constraint kind
          cases hk : constraint.kind with
          | stack => exact absurd hk hstk
          | fixedReg r =>
            rw [hk] at h
            dsimp only at h
            cases hrec : assign_ins env st (some cc) rest (k0 + 1) regs with
            | error e => rw [hrec] at h; dsimp only at h; cases h
            | ok p =>
              obtain ⟨ras1, regs1⟩ := p
              rw [hrec] at h
              dsimp only at h
              obtain ⟨hras, hregs⟩ := Prod.mk.injEq .. ▸ Except.ok.injEq .. ▸ h
              subst hregs
              obtain ⟨T, h1, h2, h3, h4, h5, h6, h7⟩ := ih hrec
              refine ⟨T, h1, h2, ?_, ?_, ?_, ?_, ?_⟩
              · intro r' hr'
                obtain ⟨e, he, hre⟩ := h3 r' hr'
                exact ⟨e, hras ▸ List.mem_cons_of_mem _ he, hre⟩
              · intro e he
                rw [← hras] at he
                rcases List.mem_cons.mp he with rfl | he'
                · exact ⟨constraint, hg, rfl, by rw [hk]; exact ⟨rfl, rfl⟩⟩
                · exact h4 e he'
              · intro j hj1 hj2
                by_cases hjk : j = k0
                · subst hjk
                  exact ⟨constraint, hg, Or.inr ⟨_, hras ▸ List.mem_cons_self _ _, rfl⟩⟩
                · have hle : k0 + 1 ≤ j := by omega
                  have hj2' : j < (k0 + 1) + rest.length := by
                    simp only [List.length_cons] at hj2; omega
                  obtain ⟨c, hc1, hc2⟩ := h5 j hle hj2'
                  refine ⟨c, hc1, ?_⟩
                  rcases hc2 with hc2 | ⟨e, he, hek⟩
                  · exact Or.inl hc2
                  · exact Or.inr ⟨e, hras ▸ List.mem_cons_of_mem _ he, hek⟩
              · intro e he
                rw [← hras] at he
                rcases List.mem_cons.mp he with rfl | he'
                · simp only [List.length_cons]; omega
                · have := h6 e he'
                  simp only [List.length_cons]; omega
              · rw [← hras]
                refine List.pairwise_cons.mpr ⟨?_, h7⟩
                intro e he
                have := h6 e he
                simp only []
                omega
          | fixedTied r =>
            rw [hk] at h
            dsimp only at h
            cases hrec : assign_ins env st (some cc) rest (k0 + 1) regs with
            | error e => rw [hrec] at h; dsimp only at h; cases h
            | ok p =>
              obtain ⟨ras1, regs1⟩ := p
              rw [hrec] at h
              dsimp only at h
              obtain ⟨hras, hregs⟩ := Prod.mk.injEq .. ▸ Except.ok.injEq .. ▸ h
              subst hregs
              obtain ⟨T, h1, h2, h3, h4, h5, h6, h7⟩ := ih hrec
              refine ⟨T, h1, h2, ?_, ?_, ?_, ?_, ?_⟩
              · intro r' hr'
                obtain ⟨e, he, hre⟩ := h3 r' hr'
                exact ⟨e, hras ▸ List.mem_cons_of_mem _ he, hre⟩
              · intro e he
                rw [← hras] at he
                rcases List.mem_cons.mp he with rfl | he'
                · exact ⟨constraint, hg, rfl, by rw [hk]; exact ⟨rfl, rfl⟩⟩
                · exact h4 e he'
              · intro j hj1 hj2
                by_cases hjk : j = k0
                · subst hjk
                  exact ⟨constraint, hg, Or.inr ⟨_, hras ▸ List.mem_cons_self _ _, rfl⟩⟩
                · have hle : k0 + 1 ≤ j := by omega
                  have hj2' : j < (k0 + 1) + rest.length := by
                    simp only [List.length_cons] at hj2; omega
                  obtain ⟨c, hc1, hc2⟩ := h5 j hle hj2'
                  refine ⟨c, hc1, ?_⟩
                  rcases hc2 with hc2 | ⟨e, he, hek⟩
                  · exact Or.inl hc2
                  · exact Or.inr ⟨e, hras ▸ List.mem_cons_of_mem _ he, hek⟩
              · intro e he
                rw [← hras] at he
                rcases List.mem_cons.mp he with rfl | he'
                · simp only [List.length_cons]; omega
                · have := h6 e he'
                  simp only [List.length_cons]; omega
              · rw [← hras]
                refine List.pairwise_cons.mpr ⟨?_, h7⟩
                intro e he
                have := h6 e he
                simp only []
                omega
          | tied i =>
            rw [hk] at h
            dsimp only at h
            cases htake : regs.take env.classes constraint.regclass with
            | mk or regs1 =>
              cases or with
              | none => rw [htake] at h; dsimp only at h; cases h
              | some r =>
                rw [htake] at h
                dsimp only at h
                obtain ⟨hrmem, hrerase⟩ := Regs.take_some htake
                cases hrec : assign_ins env st (some cc) rest (k0 + 1) regs1 with
                | error e => rw [hrec] at h; dsimp only at h; cases h
                | ok p =>
                  obtain ⟨ras1, regs2⟩ := p
                  rw [hrec] at h
                  dsimp only at h
                  obtain ⟨hras, hregs⟩ := Prod.mk.injEq .. ▸ Except.ok.injEq .. ▸ h
                  subst hregs
                  obtain ⟨T, h1, h2, h3, h4, h5, h6, h7⟩ := ih hrec
                  refine ⟨insert r T, ?_, ?_, ?_, ?_, ?_, ?_, ?_⟩
                  · rw [h1, hrerase]
                    ext x
                    simp only [Finset.mem_sdiff, Finset.mem_erase, Finset.mem_insert]
                    tauto
                  · intro x hx
                    rcases Finset.mem_insert.mp hx with rfl | hx'
                    · exact hrmem
                    · have := h2 hx'
                      rw [hrerase] at this
                      exact Finset.mem_of_mem_erase this
                  · intro r' hr'
                    rcases Finset.mem_insert.mp hr' with rfl | hr''
                    · exact ⟨_, hras ▸ List.mem_cons_self _ _, rfl⟩
                    · obtain ⟨e, he, hre⟩ := h3 r' hr''
                      exact ⟨e, hras ▸ List.mem_cons_of_mem _ he, hre⟩
                  · intro e he
                    rw [← hras] at he
                    rcases List.mem_cons.mp he with rfl | he'
                    · exact ⟨constraint, hg, rfl,
                        by rw [hk]; exact ⟨Finset.mem_insert_self _ _, rfl⟩⟩
                    · obtain ⟨c, hc1, hc2, hc3⟩ := h4 e he'
                      exact ⟨c, hc1, hc2,
                        inEntryProp_mono (Finset.subset_insert _ _) hc3⟩
                  · intro j hj1 hj2
                    by_cases hjk : j = k0
                    · subst hjk
                      exact ⟨constraint, hg,
                        Or.inr ⟨_, hras ▸ List.mem_cons_self _ _, rfl⟩⟩
                    · have hle : k0 + 1 ≤ j := by omega
                      have hj2' : j < (k0 + 1) + rest.length := by
                        simp only [List.length_cons] at hj2; omega
                      obtain ⟨c, hc1, hc2⟩ := h5 j hle hj2'
                      refine ⟨c, hc1, ?_⟩
                      rcases hc2 with hc2 | ⟨e, he, hek⟩
                      · exact Or.inl hc2
                      · exact Or.inr ⟨e, hras ▸ List.mem_cons_of_mem _ he, hek⟩
                  · intro e he
                    rw [← hras] at he
                    rcases List.mem_cons.mp he with rfl | he'
                    · simp only [List.length_cons]; omega
                    · have := h6 e he'
                      simp only [List.length_cons]; omega
                  · rw [← hras]
                    refine List.pairwise_cons.mpr ⟨?_, h7⟩
                    intro e he
                    have := h6 e he
                    simp only []
                    omega
          | reg =>
            rw [hk] at h
            dsimp only at h
            cases htake : regs.take env.classes constraint.regclass with
            | mk or regs1 =>
              cases or with
              | none => rw [htake] at h; dsimp only at h; cases h
              | some r =>
                rw [htake] at h
                dsimp only at h
                obtain ⟨hrmem, hrerase⟩ := Regs.take_some htake
                cases hrec : assign_ins env st (some cc) rest (k0 + 1) regs1 with
                | error e => rw [hrec] at h; dsimp only at h; cases h
                | ok p =>
                  obtain ⟨ras1, regs2⟩ := p
                  rw [hrec] at h
                  dsimp only at h
                  obtain ⟨hras, hregs⟩ := Prod.mk.injEq .. ▸ Except.ok.injEq .. ▸ h
                  subst hregs
                  obtain ⟨T, h1, h2, h3, h4, h5, h6, h7⟩ := ih hrec
                  refine ⟨insert r T, ?_, ?_, ?_, ?_, ?_, ?_, ?_⟩
                  · rw [h1, hrerase]
                    ext x
                    simp only [Finset.mem_sdiff, Finset.mem_erase, Finset.mem_insert]
                    tauto
                  · intro x hx
                    rcases Finset.mem_insert.mp hx with rfl | hx'
                    · exact hrmem
                    · have := h2 hx'
                      rw [hrerase] at this
                      exact Finset.mem_of_mem_erase this
                  · intro r' hr'
                    rcases Finset.mem_insert.mp hr' with rfl | hr''
                    · exact ⟨_, hras ▸ List.mem_cons_self _ _, rfl⟩
                    · obtain ⟨e, he, hre⟩ := h3 r' hr''
                      exact ⟨e, hras ▸ List.mem_cons_of_mem _ he, hre⟩
                  · intro e he
                    rw [← hras] at he
                    rcases List.mem_cons.mp he with rfl | he'
                    · exact ⟨constraint, hg, rfl,
                        by rw [hk]; exact ⟨Finset.mem_insert_self _ _, rfl⟩⟩
                    · obtain ⟨c, hc1, hc2, hc3⟩ := h4 e he'
                      exact ⟨c, hc1, hc2,
                        inEntryProp_mono (Finset.subset_insert _ _) hc3⟩
                  · intro j hj1 hj2
                    by_cases hjk : j = k0
                    · subst hjk
                      exact ⟨constraint, hg,
                        Or.inr ⟨_, hras ▸ List.mem_cons_self _ _, rfl⟩⟩
                    · have hle : k0 + 1 ≤ j := by omega
                      have hj2' : j < (k0 + 1) + rest.length := by
                        simp only [List.length_cons] at hj2; omega
                      obtain ⟨c, hc1, hc2⟩ := h5 j hle hj2'
                      refine ⟨c, hc1, ?_⟩
                      rcases hc2 with hc2 | ⟨e, he, hek⟩
                      · exact Or.inl hc2
                      · exact Or.inr ⟨e, hras ▸ List.mem_cons_of_mem _ he, hek⟩
                  · intro e he
                    rw [← hras] at he
                    rcases List.mem_cons.mp he with rfl | he'
                    · simp only [List.length_cons]; omega
                    · have := h6 e he'
                      simp only [List.length_cons]; omega
                  · rw [← hras]
                    refine List.pairwise_cons.mpr ⟨?_, h7⟩
                    intro e he
                    have := h6 e he
                    simp only []
                    omega
    · rw [if_neg hloc] at h
      cases h

/-- Specification of `assign_outs`: a successful run erases a set `OT`
of registers; the recorded `reg_results` entries match their constraints,
one entry per result index in the processed range, with strictly
increasing indices. -/
theorem assign_outs_spec {env : MEnv} {cc : OperandConstraints}
    {results : List Value} {k0 : Nat} {ras : List RegArg} {regs : Regs}
    {rrs : List RegResult} {regs' : Regs}
    (h : assign_outs env (some cc) results k0 ras regs = .ok (rrs, regs')) :
    ∃ OT : Finset Nat,
      regs'.registers = regs.registers \ OT ∧
      OT ⊆ regs.registers ∧
      (∀ r ∈ OT, ∃ rr ∈ rrs, rr.reg = r) ∧
      (∀ rr ∈ rrs, ∃ c, cc.outs.get? rr.k = some c ∧ outEntryProp ras OT rr c.kind) ∧
      (∀ j, k0 ≤ j → j < k0 + results.length → ∃ rr ∈ rrs, rr.k = j) ∧
      (∀ rr ∈ rrs, k0 ≤ rr.k ∧ rr.k < k0 + results.length) := by
  induction results generalizing k0 regs rrs regs' with
  | nil =>
    rw [assign_outs] at h
    obtain ⟨h1, h2⟩ := Prod.mk.injEq .. ▸ Except.ok.injEq .. ▸ h
    subst h1; subst h2
    refine ⟨∅, by simp, by simp, by simp, by simp, ?_, by simp⟩
    intro j hj1 hj2
    simp only [List.length_nil] at hj2
    omega
  | cons result rest ih =>
    rw [assign_outs] at h
    dsimp only at h
    cases hg : cc.outs.get? k0 with
    | none => rw [hg] at h; dsimp only at h; cases h
    | some constraint =>
      rw [hg] at h
      dsimp only at h
      by_cases hstk : constraint.kind = ConstraintKind.stack
      · rw [if_pos hstk] at h; cases h
      · rw [if_neg hstk] at h
        cases hk : constraint.kind with
        | stack => exact absurd hk hstk
        | fixedTied r =>
          rw [hk] at h
          dsimp only at h
          cases hrec : assign_outs env (some cc) rest (k0 + 1) ras regs with
          | error e => rw [hrec] at h; dsimp only at h; cases h
          | ok p =>
            obtain ⟨rrs1, regs1⟩ := p
            rw [hrec] at h
            dsimp only at h
            obtain ⟨hrrs, hregs⟩ := Prod.mk.injEq .. ▸ Except.ok.injEq .. ▸ h
            subst hregs
            obtain ⟨OT, h1, h2, h3, h4, h5, h6⟩ := ih hrec
            refine ⟨OT, h1, h2, ?_, ?_, ?_, ?_⟩
            · intro r' hr'
              obtain ⟨rr, hrr, hre⟩ := h3 r' hr'
              exact ⟨rr, hrrs ▸ List.mem_cons_of_mem _ hrr, hre⟩
            · intro rr hrr
              rw [← hrrs] at hrr
              rcases List.mem_cons.mp hrr with rfl | hrr'
              · exact ⟨constraint, hg, by rw [hk]; exact rfl⟩
              · exact h4 rr hrr'
            · intro j hj1 hj2
              by_cases hjk : j = k0
              · subst hjk
                exact ⟨_, hrrs ▸ List.mem_cons_self _ _, rfl⟩
              · have hle : k0 + 1 ≤ j := by omega
                have hj2' : j < (k0 + 1) + rest.length := by
                  simp only [List.length_cons] at hj2; omega
                obtain ⟨rr, hrr, hek⟩ := h5 j hle hj2'
                exact ⟨rr, hrrs ▸ List.mem_cons_of_mem _ hrr, hek⟩
            · intro rr hrr
              rw [← hrrs] at hrr
              rcases List.mem_cons.mp hrr with rfl | hrr'
              · simp only [List.length_cons]; omega
              · have := h6 rr hrr'
                simp only [List.length_cons]; omega
        | fixedReg r =>
          rw [hk] at h
          dsimp only at h
          cases hrec : assign_outs env (some cc) rest (k0 + 1) ras regs with
          | error e => rw [hrec] at h; dsimp only at h; cases h
          | ok p =>
            obtain ⟨rrs1, regs1⟩ := p
            rw [hrec] at h
            dsimp only at h
            obtain ⟨hrrs, hregs⟩ := Prod.mk.injEq .. ▸ Except.ok.injEq .. ▸ h
            subst hregs
            obtain ⟨OT, h1, h2, h3, h4, h5, h6⟩ := ih hrec
            refine ⟨OT, h1, h2, ?_, ?_, ?_, ?_⟩
            · intro r' hr'
              obtain ⟨rr, hrr, hre⟩ := h3 r' hr'
              exact ⟨rr, hrrs ▸ List.mem_cons_of_mem _ hrr, hre⟩
            · intro rr hrr
              rw [← hrrs] at hrr
              rcases List.mem_cons.mp hrr with rfl | hrr'
              · exact ⟨constraint, hg, by rw [hk]; exact rfl⟩
              · exact h4 rr hrr'
            · intro j hj1 hj2
              by_cases hjk : j = k0
              · subst hjk
                exact ⟨_, hrrs ▸ List.mem_cons_self _ _, rfl⟩
              · have hle : k0 + 1 ≤ j := by omega
                have hj2' : j < (k0 + 1) + rest.length := by
                  simp only [List.length_cons] at hj2; omega
                obtain ⟨rr, hrr, hek⟩ := h5 j hle hj2'
                exact ⟨rr, hrrs ▸ List.mem_cons_of_mem _ hrr, hek⟩
            · intro rr hrr
              rw [← hrrs] at hrr
              rcases List.mem_cons.mp hrr with rfl | hrr'
              · simp only [List.length_cons]; omega
              · have := h6 rr hrr'
                simp only [List.length_cons]; omega
        | tied input =>
          rw [hk] at h
          dsimp only at h
          cases hfind : ras.find? (fun e => e.k == input) with
          | none => rw [hfind] at h; dsimp only at h; cases h
          | some hit =>
            rw [hfind] at h
            dsimp only at h
            by_cases htied : hit.is_tied = true
            · rw [if_pos htied] at h
              dsimp only at h
              cases hrec : assign_outs env (some cc) rest (k0 + 1) ras regs with
              | error e => rw [hrec] at h; dsimp only at h; cases h
              | ok p =>
                obtain ⟨rrs1, regs1⟩ := p
                rw [hrec] at h
                dsimp only at h
                obtain ⟨hrrs, hregs⟩ := Prod.mk.injEq .. ▸ Except.ok.injEq .. ▸ h
                subst hregs
                obtain ⟨OT, h1, h2, h3, h4, h5, h6⟩ := ih hrec
                refine ⟨OT, h1, h2, ?_, ?_, ?_, ?_⟩
                · intro r' hr'
                  obtain ⟨rr, hrr, hre⟩ := h3 r' hr'
                  exact ⟨rr, hrrs ▸ List.mem_cons_of_mem _ hrr, hre⟩
                · intro rr hrr
                  rw [← hrrs] at hrr
                  rcases List.mem_cons.mp hrr with rfl | hrr'
                  · exact ⟨constraint, hg, by
                      rw [hk]
                      exact ⟨hit, hfind, htied, rfl, rfl⟩⟩
                  · exact h4 rr hrr'
                · intro j hj1 hj2
                  by_cases hjk : j = k0
                  · subst hjk
                    exact ⟨_, hrrs ▸ List.mem_cons_self _ _, rfl⟩
                  · have hle : k0 + 1 ≤ j := by omega
                    have hj2' : j < (k0 + 1) + rest.length := by
                      simp only [List.length_cons] at hj2; omega
                    obtain ⟨rr, hrr, hek⟩ := h5 j hle hj2'
                    exact ⟨rr, hrrs ▸ List.mem_cons_of_mem _ hrr, hek⟩
                · intro rr hrr
                  rw [← hrrs] at hrr
                  rcases List.mem_cons.mp hrr with rfl | hrr'
                  · simp only [List.length_cons]; omega
                  · have := h6 rr hrr'
                    simp only [List.length_cons]; omega
            · rw [if_neg htied] at h
              dsimp only at h
              cases h
        | reg =>
          rw [hk] at h
          dsimp only at h
          cases htake : regs.take env.classes constraint.regclass with
          | mk or regs1 =>
            cases or with
            | none => rw [htake] at h; dsimp only at h; cases h
            | some r =>
              rw [htake] at h
              dsimp only at h
              obtain ⟨hrmem, hrerase⟩ := Regs.take_some htake
              cases hrec : assign_outs env (some cc) rest (k0 + 1) ras regs1 with
              | error e => rw [hrec] at h; dsimp only at h; cases h
              | ok p =>
                obtain ⟨rrs1, regs2⟩ := p
                rw [hrec] at h
                dsimp only at h
                obtain ⟨hrrs, hregs⟩ := Prod.mk.injEq .. ▸ Except.ok.injEq .. ▸ h
                subst hregs
                obtain ⟨OT, h1, h2, h3, h4, h5, h6⟩ := ih hrec
                refine ⟨insert r OT, ?_, ?_, ?_, ?_, ?_, ?_⟩
                · rw [h1, hrerase]
                  ext x
                  simp only [Finset.mem_sdiff, Finset.mem_erase, Finset.mem_insert]
                  tauto
                · intro x hx
                  rcases Finset.mem_insert.mp hx with rfl | hx'
                  · exact hrmem
                  · have := h2 hx'
                    rw [hrerase] at this
                    exact Finset.mem_of_mem_erase this
                · intro r' hr'
                  rcases Finset.mem_insert.mp hr' with rfl | hr''
                  · exact ⟨_, hrrs ▸ List.mem_cons_self _ _, rfl⟩
                  · obtain ⟨rr, hrr, hre⟩ := h3 r' hr''
                    exact ⟨rr, hrrs ▸ List.mem_cons_of_mem _ hrr, hre⟩
                · intro rr hrr
                  rw [← hrrs] at hrr
                  rcases List.mem_cons.mp hrr with rfl | hrr'
                  · exact ⟨constraint, hg, by
                      rw [hk]
                      exact Finset.mem_insert_self _ _⟩
                  · obtain ⟨c, hc1, hc2⟩ := h4 rr hrr'
                    exact ⟨c, hc1, outEntryProp_mono (Finset.subset_insert _ _) hc2⟩
                · intro j hj1 hj2
                  by_cases hjk : j = k0
                  · subst hjk
                    exact ⟨_, hrrs ▸ List.mem_cons_self _ _, rfl⟩
                  · have hle : k0 + 1 ≤ j := by omega
                    have hj2' : j < (k0 + 1) + rest.length := by
                      simp only [List.length_cons] at hj2; omega
                    obtain ⟨rr, hrr, hek⟩ := h5 j hle hj2'
                    exact ⟨rr, hrrs ▸ List.mem_cons_of_mem _ hrr, hek⟩
                · intro rr hrr
                  rw [← hrrs] at hrr
                  rcases List.mem_cons.mp hrr with rfl | hrr'
                  · simp only [List.length_cons]; omega
                  · have := h6 rr hrr'
                    simp only [List.length_cons]; omega

/-! ## Slot injectivity and freshness -/

/-- No two distinct values share a stack slot in the map `f`. -/
def locInj (f : Value → ValueLoc) : Prop :=
  ∀ v w s, f v = .stack s → f w = .stack s → v = w

/-- Every stack slot mentioned by the map `f` is below `n`. -/
def locBelow (f : Value → ValueLoc) (n : Nat) : Prop :=
  ∀ v s, f v = .stack s → s < n

/-- Stack slots are never shared between distinct values in `st`. -/
def SlotInj (st : FuncState) : Prop := locInj st.locations

/-- Every slot in use lies below the allocation counter in `st`. -/
def SlotsBelow (st : FuncState) : Prop := locBelow st.locations st.nextSlot

theorem locInj_upd_reg {f : Value → ValueLoc} (h : locInj f) (x : Value) (r : RegUnit) :
    locInj (upd f x (.reg r)) := by
  intro v w s hv hw
  by_cases hvx : v = x
  · subst hvx; rw [upd_same] at hv; cases hv
  · by_cases hwx : w = x
    · subst hwx; rw [upd_same] at hw; cases hw
    · rw [upd_of_ne _ _ hvx] at hv
      rw [upd_of_ne _ _ hwx] at hw
      exact h v w s hv hw

theorem locBelow_upd_reg {f : Value → ValueLoc} {n : Nat} (h : locBelow f n)
    (x : Value) (r : RegUnit) : locBelow (upd f x (.reg r)) n := by
  intro v s hv
  by_cases hvx : v = x
  · subst hvx; rw [upd_same] at hv; cases hv
  · rw [upd_of_ne _ _ hvx] at hv
    exact h v s hv

theorem locBelow_mono {f : Value → ValueLoc} {n m : Nat} (h : locBelow f n)
    (hnm : n ≤ m) : locBelow f m :=
  fun v s hv => lt_of_lt_of_le (h v s hv) hnm

theorem locInj_upd_fresh_stack {f : Value → ValueLoc} {n : Nat}
    (hinj : locInj f) (hbelow : locBelow f n) (x : Value) :
    locInj (upd f x (.stack n)) := by
  intro v w s hv hw
  by_cases hvx : v = x
  · by_cases hwx : w = x
    · rw [hvx, hwx]
    · subst hvx
      rw [upd_same] at hv
      rw [upd_of_ne _ _ hwx] at hw
      cases hv
      exact absurd (hbelow w _ hw) (lt_irrefl _)
  · rw [upd_of_ne _ _ hvx] at hv
    by_cases hwx : w = x
    · subst hwx
      rw [upd_same] at hw
      cases hw
      exact absurd (hbelow v _ hv) (lt_irrefl _)
    · rw [upd_of_ne _ _ hwx] at hw
      exact hinj v w s hv hw

theorem locBelow_upd_stack {f : Value → ValueLoc} {n : Nat} (h : locBelow f n)
    (x : Value) : locBelow (upd f x (.stack n)) (n + 1) := by
  intro v s hv
  by_cases hvx : v = x
  · subst hvx
    rw [upd_same] at hv
    injection hv with hs
    exact hs ▸ Nat.lt_succ_self n
  · rw [upd_of_ne _ _ hvx] at hv
    exact lt_trans (h v s hv) (Nat.lt_succ_self n)

/-- `emit_fills` only pins register locations: slot injectivity and slot
freshness are preserved and the slot counter does not move. -/
theorem emit_fills_slots (env : MEnv) (inst : Inst) (ras : List RegArg) :
    ∀ (st : FuncState) (regs : Regs), SlotInj st → SlotsBelow st →
      SlotInj (emit_fills env st regs inst ras).1 ∧
      SlotsBelow (emit_fills env st regs inst ras).1 ∧
      (emit_fills env st regs inst ras).1.nextSlot = st.nextSlot := by
  induction ras with
  | nil => intro st regs h1 h2; exact ⟨h1, h2, rfl⟩
  | cons ra rest ih =>
    intro st regs h1 h2
    rw [emit_fills]
    by_cases ht : env.type_flags (st.valueType ra.arg)
    · rw [if_pos ht]
      exact ih _ _ (locInj_upd_reg h1 _ _) (locBelow_upd_reg h2 _ _)
    · rw [if_neg ht]
      exact ih _ _ (locInj_upd_reg h1 _ _) (locBelow_upd_reg h2 _ _)

/-- `emit_spills` assigns only register locations and fresh stack slots:
slot injectivity and slot freshness are preserved. -/
theorem emit_spills_slots (env : MEnv) (inst : Inst) (rrs : List RegResult) :
    ∀ (st : FuncState) (regs : Regs), SlotInj st → SlotsBelow st →
      SlotInj (emit_spills env st regs inst rrs).1 ∧
      SlotsBelow (emit_spills env st regs inst rrs).1 := by
  induction rrs with
  | nil => intro st regs h1 h2; exact ⟨h1, h2⟩
  | cons rr rest ih =>
    intro st regs h1 h2
    rw [emit_spills]
    by_cases ht : env.type_flags (st.valueType rr.result)
    · rw [if_pos ht]
      exact ih _ _ (locInj_upd_reg h1 _ _) (locBelow_upd_reg h2 _ _)
    · rw [if_neg ht]
      refine ih _ _ ?_ ?_
      · exact locInj_upd_fresh_stack (locInj_upd_reg h1 _ _)
          (locBelow_upd_reg h2 _ _) _
      · exact locBelow_upd_stack (locBelow_upd_reg h2 _ _) _

/-- `assign_param_slots` does not touch values outside its list. -/
theorem assign_param_slots_preserves (ps : List Value) :
    ∀ (st : FuncState) (v : Value), v ∉ ps →
      (assign_param_slots st ps).locations v = st.locations v := by
  induction ps with
  | nil => intro st v _; rfl
  | cons p rest ih =>
    intro st v hv
    rw [assign_param_slots]
    have hvp : v ≠ p := fun hvp => hv (hvp ▸ List.mem_cons_self _ _)
    have hvrest : v ∉ rest := fun hr => hv (List.mem_cons_of_mem _ hr)
    rw [ih _ v hvrest]
    exact upd_of_ne _ _ hvp

/-! ## C1: the rename loop and multiple occurrences of the renamed value -/

/-- A use instruction `0` whose argument list `[5, 7, 5]` mentions the
original value `5` twice. -/
def c1State : SplitState where
  ebbParams := fun _ => []
  instArgs := fun i => if i = 0 then [5, 7, 5] else []
  valueType := fun _ => 0
  nextValue := 100

/-- C1: in the rename phase, when `find_redefinition` returns a new
definition `9` for a use instruction whose arguments are `[5, 7, 5]` with
original value `5`, the replacement loop of `rename_uses` rewrites BOTH
occurrences to `9` in that single visit — the later occurrence is not
left unchanged, contradicting the claim (the loop in the source has no
`break`, although its own comment says it renames "the first use"). -/
theorem splitting_c1_replaces_all_occurrences :
    (rename_one_use c1State 0 5 (some 9)).instArgs 0 = [9, 7, 9] ∧
    replace_renamed_args [5, 7, 5] 5 9 = [9, 7, 9] ∧
    [9, 7, 9] ≠ [9, 7, 5] := by
  exact ⟨rfl, rfl, by decide⟩

/-! ## C2: indirect jump-table branches in the minimal allocator -/

/-- An `IndirectJumpTableBr` instruction `0` whose indexed argument is
value `7`, stack resident in slot `0`. -/
def c2State : FuncState :=
  { baseState with
    instData := upd baseState.instData 0 (.indirectJump 7)
    instOpcode := upd baseState.instOpcode 0 .indirectJumpTableBr
    encodings := upd baseState.encodings 0
      (some ⟨[⟨.reg, 0⟩], [], false, false⟩)
    locations := upd baseState.locations 7 (.stack 0) }

/-- C2: `classify_branch` marks the indirect jump as having an argument,
but `visit_branch` (and hence `visit_inst`) returns with the function
state and register set completely untouched, because the entire body of
`visit_branch` sits inside `if let Some(target) = target_info` and an
indirect jump has no target.  No fill is inserted (the emitted trace
stays empty), no register is assigned and the argument still refers to
the stack-resident value `7` — the claim's fill/rewrite never happens. -/
theorem minimal_c2_indirect_jump_untouched :
    classify_branch c2State 0 .indirectJumpTableBr = .ok (none, true) ∧
    visit_inst baseEnv c2State ⟨{0, 1, 2, 3}⟩ 0 = .ok (c2State, ⟨{0, 1, 2, 3}⟩) ∧
    c2State.instData 0 = .indirectJump 7 ∧
    c2State.locations 7 = .stack 0 ∧
    c2State.emitted = [] := by
  exact ⟨rfl, rfl, rfl, rfl, rfl⟩

/-! ## C3: sharing of stack slots -/

/-- A `copy` instruction `0` copying value `1` (stack slot `0`) into
value `2`. -/
def c3State : FuncState :=
  { baseState with
    instData := upd baseState.instData 0 (.unary 1)
    instOpcode := upd baseState.instOpcode 0 .copy
    instResults := upd baseState.instResults 0 [2]
    locations := upd baseState.locations 1 (.stack 0) }

/-- The state after the allocator visits the copy. -/
def c3Result : FuncState :=
  match visit_copy c3State ⟨{0, 1, 2, 3}⟩ 0 with
  | .ok p => p.1
  | .error _ => c3State

/-- C3 counterexample: after `visit_copy` processes `v2 = copy v1` with
`location[v1] = Stack(0)`, the two distinct values `1` and `2` share the
stack slot `0`, so a slot that was the location of one value IS assigned
as the location of a different value — the claimed invariant fails. -/
theorem minimal_c3_counterexample :
    visit_copy c3State ⟨{0, 1, 2, 3}⟩ 0 = .ok (c3Result, ⟨{0, 1, 2, 3}⟩) ∧
    c3Result.locations 1 = ValueLoc.stack 0 ∧
    c3Result.locations 2 = ValueLoc.stack 0 ∧
    (1 : Value) ≠ 2 := by
  exact ⟨rfl, rfl, rfl, by decide⟩

/-! ## C7 counterexample: `take` can fail inside a single instruction -/

/-- An ISA whose only register class `0` holds the single unit `0`. -/
def c7Env : MEnv where
  classes := fun _ => [0]
  spill_ins_rc := 0
  type_flags := fun _ => false

/-- A plain instruction `0` with two `Reg`-constrained arguments of the
one-register class and no results; both arguments are stack resident and
the constraint record is well formed in the claim's sense (no tied
inputs, and the empty output constraint list matches the empty result
list). -/
def c7State : FuncState :=
  { baseState with
    instData := upd baseState.instData 0 (.multi [1, 2])
    encodings := upd baseState.encodings 0
      (some ⟨[⟨.reg, 0⟩, ⟨.reg, 0⟩], [], false, false⟩)
    locations := upd (upd baseState.locations 1 (.stack 0)) 2 (.stack 1) }

/-- C7 counterexample: although the instruction starts with the full
allocatable register set free (`{0}`) and its constraints are well formed
in the claim's sense, `take(class)` returns none while assigning the
second input register — a single instruction can exhaust a class, so the
claim's "take(class) never returns none" does not hold. -/
theorem minimal_c7_counterexample :
    visit_plain_inst c7Env c7State ⟨{0}⟩ 0 .plainOp =
      .error "register class exhausted" ∧
    c7State.encodings 0 = some ⟨[⟨.reg, 0⟩, ⟨.reg, 0⟩], [], false, false⟩ ∧
    c7State.instResults 0 = [] := by
  exact ⟨rfl, rfl, rfl⟩

/-! ## C9: the abort conditions of the minimal allocator -/

/-- C9: `visit_inst` aborts on a `Fallthrough` opcode, on the
regmove-family opcodes (`Regmove`, `Regfill`, `Regspill`,
`CopySpecial`) and on every call instruction, and
`visit_entry_block_params` aborts whenever an entry parameter's ABI
location is `Unassigned`, whatever the rest of the state is — in each
case the pass stops with an error instead of transforming the
function. -/
theorem minimal_c9_panics :
    (∀ (env : MEnv) (st : FuncState) (regs : Regs) (i : Inst),
      st.instOpcode i = Opcode.fallthrough →
      visit_inst env st regs i = .error "Fallthrough must have been lowered") ∧
    (∀ (env : MEnv) (st : FuncState) (regs : Regs) (i : Inst),
      (st.instOpcode i = Opcode.regmove ∨ st.instOpcode i = Opcode.regfill ∨
       st.instOpcode i = Opcode.regspill ∨ st.instOpcode i = Opcode.copySpecial) →
      visit_inst env st regs i = .error "unexpected opcode at this stage") ∧
    (∀ (env : MEnv) (st : FuncState) (regs : Regs) (i : Inst),
      (st.instOpcode i).is_call = true →
      visit_inst env st regs i = .error "Calls not yet implemented") ∧
    (∀ (st : FuncState) (entry : Ebb) (pairs : List (Value × AbiParam))
       (p : Value) (abi : AbiParam),
      (p, abi) ∈ pairs → abi.location = ArgumentLoc.unassigned →
      ∃ msg, visit_entry_block_params st entry pairs = .error msg) := by
  refine ⟨?_, ?_, ?_, ?_⟩
  · intro env st regs i h
    simp [visit_inst, h]
  · intro env st regs i h
    rcases h with h | h | h | h <;>
      simp [visit_inst, h, Opcode.is_branch, Opcode.is_terminator, Opcode.is_call,
        visit_call]
  · intro env st regs i h
    cases hop : st.instOpcode i <;> simp [hop, Opcode.is_call] at h <;>
      simp [visit_inst, hop, Opcode.is_branch, Opcode.is_terminator, Opcode.is_call,
        visit_call]
  · intro st entry pairs
    induction pairs generalizing st with
    | nil => intro p abi h; cases h
    | cons q rest ih =>
      obtain ⟨qv, qabi⟩ := q
      intro p abi hmem habi
      rcases List.mem_cons.mp hmem with heq | hmem'
      · obtain ⟨rfl, rfl⟩ := Prod.mk.injEq .. ▸ heq
        exact ⟨"Should not happen", by simp [visit_entry_block_params, habi]⟩
      · cases hloc : qabi.location with
        | reg r =>
          simpa [visit_entry_block_params, hloc] using
            (ih _ p abi hmem' habi)
        | stack off =>
          by_cases hs : locIsStack (st.locations qv)
          · simpa [visit_entry_block_params, hloc, hs] using
              (ih _ p abi hmem' habi)
          · exact ⟨"entry stack parameter without a stack location",
              by simp [visit_entry_block_params, hloc, hs]⟩
        | unassigned =>
          exact ⟨"Should not happen", by simp [visit_entry_block_params, hloc]⟩

/-- A concrete call instruction, used to exercise the abort theorem. -/
def c9CallState : FuncState :=
  { baseState with instOpcode := upd baseState.instOpcode 0 .call }

/-- A concrete `Fallthrough` instruction. -/
def c9FallthroughState : FuncState :=
  { baseState with instOpcode := upd baseState.instOpcode 0 .fallthrough }

/-- A concrete `Regmove` instruction. -/
def c9RegmoveState : FuncState :=
  { baseState with instOpcode := upd baseState.instOpcode 0 .regmove }

/-- Witness for C9: the abort theorem applied to a concrete
`Fallthrough`, a concrete `Regmove`, a concrete `call` and a parameter
list containing an `Unassigned` ABI entry. -/
theorem minimal_c9_panics_witness :
    visit_inst baseEnv c9FallthroughState ⟨{0}⟩ 0 =
      .error "Fallthrough must have been lowered" ∧
    visit_inst baseEnv c9RegmoveState ⟨{0}⟩ 0 =
      .error "unexpected opcode at this stage" ∧
    visit_inst baseEnv c9CallState ⟨{0}⟩ 0 = .error "Calls not yet implemented" ∧
    ∃ msg, visit_entry_block_params baseState 0 [(4, ⟨.unassigned, 0⟩)] = .error msg := by
  refine ⟨?_, ?_, ?_, ?_⟩
  · exact minimal_c9_panics.1 baseEnv c9FallthroughState ⟨{0}⟩ 0 rfl
  · exact minimal_c9_panics.2.1 baseEnv c9RegmoveState ⟨{0}⟩ 0 (Or.inl rfl)
  · exact minimal_c9_panics.2.2.1 baseEnv c9CallState ⟨{0}⟩ 0 rfl
  · exact minimal_c9_panics.2.2.2 baseState 0 [(4, ⟨.unassigned, 0⟩)] 4 ⟨.unassigned, 0⟩
      (List.mem_singleton.mpr rfl) rfl

/-! ## C3 amended: freshly allocated slots are never reused -/

/-- C3 amended: `make_spill_slot` always returns a fresh slot, so the
block-parameter preparation gives distinct parameters distinct stack
slots, and plain-instruction rewriting preserves slot injectivity (it
assigns only register locations and fresh slots).  Slot sharing can thus
only come from the copy aliasing and branch-argument spills exhibited by
the counterexample. -/
theorem minimal_c3_amended :
    (∀ (st : FuncState) (ps : List Value), ps.Nodup → SlotInj st → SlotsBelow st →
      SlotInj (assign_param_slots st ps) ∧ SlotsBelow (assign_param_slots st ps) ∧
      (∀ p ∈ ps, ∃ s, (assign_param_slots st ps).locations p = ValueLoc.stack s) ∧
      (∀ p ∈ ps, ∀ q ∈ ps, p ≠ q →
        (assign_param_slots st ps).locations p ≠
          (assign_param_slots st ps).locations q)) ∧
    (∀ (env : MEnv) (st : FuncState) (regs : Regs) (inst : Inst) (op : Opcode)
       (st' : FuncState) (regs' : Regs),
      visit_plain_inst env st regs inst op = .ok (st', regs') →
      SlotInj st → SlotsBelow st → SlotInj st' ∧ SlotsBelow st') := by
  constructor
  · have main : ∀ (ps : List Value) (st : FuncState), ps.Nodup →
        SlotInj st → SlotsBelow st →
        SlotInj (assign_param_slots st ps) ∧ SlotsBelow (assign_param_slots st ps) ∧
        (∀ p ∈ ps, ∃ s, (assign_param_slots st ps).locations p = ValueLoc.stack s) := by
      intro ps
      induction ps with
      | nil =>
        intro st _ h1 h2
        exact ⟨h1, h2, by simp⟩
      | cons p rest ih =>
        intro st hnd h1 h2
        obtain ⟨hp, hrest⟩ := List.nodup_cons.mp hnd
        rw [assign_param_slots]
        have h1' : SlotInj { ({ st with nextSlot := st.nextSlot + 1 } : FuncState) with
            locations := upd st.locations p (ValueLoc.stack st.nextSlot) } :=
          locInj_upd_fresh_stack h1 h2 p
        have h2' : SlotsBelow { ({ st with nextSlot := st.nextSlot + 1 } : FuncState) with
            locations := upd st.locations p (ValueLoc.stack st.nextSlot) } :=
          locBelow_upd_stack h2 p
        obtain ⟨g1, g2, g3⟩ := ih _ hrest h1' h2'
        refine ⟨g1, g2, ?_⟩
        intro q hq
        rcases List.mem_cons.mp hq with rfl | hq'
        · refine ⟨st.nextSlot, ?_⟩
          rw [assign_param_slots_preserves rest _ q hp]
          exact upd_same _ _ _
        · exact g3 q hq'
    intro st ps hnd h1 h2
    obtain ⟨g1, g2, g3⟩ := main ps st hnd h1 h2
    refine ⟨g1, g2, g3, ?_⟩
    intro p hp q hq hne heq
    obtain ⟨s, hs⟩ := g3 p hp
    obtain ⟨s', hs'⟩ := g3 q hq
    rw [hs, hs'] at heq
    injection heq with hss
    exact hne (g1 p q s hs (hss ▸ hs'))
  · intro env st regs inst op st' regs' h h1 h2
    rw [visit_plain_inst] at h
    dsimp only at h
    cases hB : assign_ins env st (st.encodings inst) (st.instData inst).args 0
        (reserve_fixed_ins (st.encodings inst) regs) with
    | error e => rw [hB] at h; dsimp only at h; cases h
    | ok p =>
      obtain ⟨ras, regsB⟩ := p
      rw [hB] at h
      dsimp only at h
      cases hC : emit_fills env st regsB inst ras with
      | mk stC regsC =>
        rw [hC] at h
        dsimp only at h
        cases hE : assign_outs env (st.encodings inst) (stC.instResults inst) 0 ras
            (reserve_fixed_outs (st.encodings inst) regsC) with
        | error e => rw [hE] at h; dsimp only at h; cases h
        | ok q =>
          obtain ⟨rrs, regsE⟩ := q
          rw [hE] at h
          dsimp only at h
          obtain ⟨hst, _⟩ := Prod.mk.injEq .. ▸ Except.ok.injEq .. ▸ h
          have hfills := emit_fills_slots env inst ras st regsB h1 h2
          rw [hC] at hfills
          dsimp only at hfills
          obtain ⟨hc1, hc2, _⟩ := hfills
          have hmain := emit_spills_slots env inst rrs stC regsE hc1 hc2
          rw [← hst]
          exact hmain

/-- A plain instruction with one stack-resident `Reg`-constrained
argument and no results, for exercising the amended slot theorem. -/
def c3aState : FuncState :=
  { baseState with
    instData := upd baseState.instData 0 (.multi [1])
    encodings := upd baseState.encodings 0 (some ⟨[⟨.reg, 0⟩], [], false, false⟩)
    locations := upd baseState.locations 1 (.stack 0) }

theorem c3aState_inj : SlotInj c3aState := by
  intro v w s hv hw
  by_cases hv1 : v = 1
  · by_cases hw1 : w = 1
    · rw [hv1, hw1]
    · exfalso
      have hwu : c3aState.locations w = .unassigned := by
        show upd baseState.locations 1 (.stack 0) w = _
        rw [upd_of_ne _ _ hw1]
        rfl
      rw [hwu] at hw; cases hw
  · exfalso
    have hvu : c3aState.locations v = .unassigned := by
      show upd baseState.locations 1 (.stack 0) v = _
      rw [upd_of_ne _ _ hv1]
      rfl
    rw [hvu] at hv; cases hv

theorem c3aState_below : SlotsBelow c3aState := by
  intro v s hv
  by_cases hv1 : v = 1
  · subst hv1
    have h1 : c3aState.locations 1 = .stack 0 := rfl
    rw [h1] at hv
    injection hv with h
    subst h
    show (0 : Nat) < c3aState.nextSlot
    decide
  · have hvu : c3aState.locations v = .unassigned := by
      show upd baseState.locations 1 (.stack 0) v = _
      rw [upd_of_ne _ _ hv1]
      rfl
    rw [hvu] at hv; cases hv

/-- The run of the plain-instruction rewriting on `c3aState`. -/
def c3aResult : FuncState × Regs :=
  match visit_plain_inst baseEnv c3aState ⟨{0, 1, 2, 3}⟩ 0 .plainOp with
  | .ok p => p
  | .error _ => (c3aState, ⟨{0, 1, 2, 3}⟩)

theorem baseState_inj : SlotInj baseState := by
  intro v w s hv _
  cases hv

theorem baseState_below : SlotsBelow baseState := by
  intro v s hv
  cases hv

/-- Witness for the amended C3: fresh slots for the parameter list
`[1, 2]` of an empty function, and preservation of slot injectivity
through a concrete plain-instruction run. -/
theorem minimal_c3_amended_witness :
    (SlotInj (assign_param_slots baseState [1, 2]) ∧
     SlotsBelow (assign_param_slots baseState [1, 2]) ∧
     (∀ p ∈ [1, 2], ∃ s,
        (assign_param_slots baseState [1, 2]).locations p = ValueLoc.stack s) ∧
     (∀ p ∈ [1, 2], ∀ q ∈ [1, 2], p ≠ q →
        (assign_param_slots baseState [1, 2]).locations p ≠
          (assign_param_slots baseState [1, 2]).locations q)) ∧
    visit_plain_inst baseEnv c3aState ⟨{0, 1, 2, 3}⟩ 0 .plainOp =
      .ok (c3aResult.1, c3aResult.2) ∧
    (SlotInj c3aResult.1 ∧ SlotsBelow c3aResult.1) := by
  refine ⟨?_, rfl, ?_⟩
  · exact minimal_c3_amended.1 baseState [1, 2] (by decide) baseState_inj baseState_below
  · have h : visit_plain_inst baseEnv c3aState ⟨{0, 1, 2, 3}⟩ 0 .plainOp =
        .ok (c3aResult.1, c3aResult.2) := rfl
    exact minimal_c3_amended.2 baseEnv c3aState ⟨{0, 1, 2, 3}⟩ 0 .plainOp
      c3aResult.1 c3aResult.2 h c3aState_inj c3aState_below

/-! ## C6: tied outputs reuse the tied input's register -/

/-- C6: whenever `assign_outs` succeeds, every output whose constraint is
`Tied(i)` received exactly the register of the `reg_args` entry found for
input index `i`, and that input was marked tied — and `emit_fills` only
returns the untied registers to the free set, so a tied input's register
is not freed after its fill. -/
theorem minimal_c6_tied_outputs :
    (∀ (env : MEnv) (cc : OperandConstraints) (results : List Value) (k0 : Nat)
       (reg_args : List RegArg) (regs : Regs) (rrs : List RegResult) (regs' : Regs)
       (rr : RegResult) (c : OperandConstraint) (i : Nat),
      assign_outs env (some cc) results k0 reg_args regs = .ok (rrs, regs') →
      rr ∈ rrs → cc.outs.get? rr.k = some c → c.kind = ConstraintKind.tied i →
      ∃ e, reg_args.find? (fun x => x.k == i) = some e ∧ e.is_tied = true ∧
        rr.reg = e.reg ∧ rr.rc = e.rc) ∧
    (∀ (env : MEnv) (st : FuncState) (regs : Regs) (inst : Inst)
       (ras : List RegArg),
      ((emit_fills env st regs inst ras).2).registers =
        regs.registers ∪ nontiedRegs ras) := by
  constructor
  · intro env cc results k0 reg_args regs rrs regs' rr c i h hrr hget hkind
    obtain ⟨_, _, _, _, h4, _, _⟩ := assign_outs_spec h
    obtain ⟨c', hc1, hc2⟩ := h4 rr hrr
    rw [hget] at hc1
    injection hc1 with hcc
    subst hcc
    rw [hkind] at hc2
    exact hc2
  · intro env st regs inst ras
    exact emit_fills_registers env st regs inst ras

/-- A tied two-address instruction used to exercise C6: input 0 is tied
and holds register 0, the single output is `Tied(0)`. -/
def c6Cons : OperandConstraints :=
  ⟨[⟨.tied 0, 0⟩, ⟨.reg, 0⟩], [⟨.tied 0, 0⟩], false, false⟩

/-- The `reg_args` produced for such an instruction: input 0 tied in
register 0, input 1 untied in register 1. -/
def c6Ras : List RegArg := [⟨0, 1, 0, 0, true⟩, ⟨1, 2, 0, 1, false⟩]

/-- Witness for C6: the tied-output theorem applied to a concrete
`assign_outs` run, and the fill loop freeing only the untied register. -/
theorem minimal_c6_tied_outputs_witness :
    assign_outs baseEnv (some c6Cons) [3] 0 c6Ras ⟨{1, 2, 3}⟩ =
      .ok ([⟨0, 3, 0, 0⟩], ⟨{1, 2, 3}⟩) ∧
    (∃ e, c6Ras.find? (fun x => x.k == 0) = some e ∧ e.is_tied = true ∧
      (RegResult.mk 0 3 0 0).reg = e.reg ∧ (RegResult.mk 0 3 0 0).rc = e.rc) ∧
    ((emit_fills baseEnv baseState ⟨{5}⟩ 0 c6Ras).2).registers =
      ({5} : Finset Nat) ∪ nontiedRegs c6Ras := by
  refine ⟨rfl, ?_, ?_⟩
  · exact minimal_c6_tied_outputs.1 baseEnv c6Cons [3] 0 c6Ras ⟨{1, 2, 3}⟩
      [⟨0, 3, 0, 0⟩] ⟨{1, 2, 3}⟩ ⟨0, 3, 0, 0⟩ ⟨.tied 0, 0⟩ 0 rfl
      (List.mem_singleton.mpr rfl) rfl rfl
  · exact minimal_c6_tied_outputs.2 baseEnv baseState ⟨{5}⟩ 0 c6Ras

/-! ## C7 amended: per-instruction register balance -/

/-- C7 amended: under a consistent target description — the fixed-in and
fixed-out summary flags cover the fixed constraints, the fixed units are
allocatable, the constraint lists match the argument and result lists, no
two operands receive the same register, every tied input has a matching
tied output and every `FixedTied` output comes from a tied input — the
register set after `visit_plain_inst` is exactly the register set before
it: every register taken while processing one instruction is returned
before that instruction's processing completes.  The per-argument branch
fill/spill loop likewise restores the free set. -/
theorem minimal_c7_amended :
    (∀ (env : MEnv) (st : FuncState) (regs : Regs) (inst : Inst) (op : Opcode)
       (cc : OperandConstraints) (ras : List RegArg) (regsB : Regs)
       (stC : FuncState) (regsC : Regs) (rrs : List RegResult) (regsE : Regs),
      st.encodings inst = some cc →
      assign_ins env st (some cc) (st.instData inst).args 0
        (reserve_fixed_ins (some cc) regs) = .ok (ras, regsB) →
      emit_fills env st regsB inst ras = (stC, regsC) →
      assign_outs env (some cc) (stC.instResults inst) 0 ras
        (reserve_fixed_outs (some cc) regsC) = .ok (rrs, regsE) →
      (cc.fixed_ins = false → fixedInUnits cc.ins = ∅) →
      (cc.fixed_outs = false → fixedOutUnits cc.outs = ∅) →
      fixedInUnits cc.ins ⊆ regs.registers →
      fixedOutUnits cc.outs ⊆ regs.registers →
      (st.instData inst).args.length = cc.ins.length →
      (stC.instResults inst).length = cc.outs.length →
      (ras.map RegArg.reg).Nodup →
      (∀ e ∈ ras, e.is_tied = true →
        ∃ j c, cc.outs.get? j = some c ∧
          (c.kind = ConstraintKind.tied e.k ∨
           c.kind = ConstraintKind.fixedTied e.reg)) →
      (∀ e ∈ ras, e.is_tied = true → e.reg ∉ fixedOutUnits cc.outs) →
      (∀ j c u, cc.outs.get? j = some c → c.kind = ConstraintKind.fixedTied u →
        ∃ e ∈ ras, e.is_tied = true ∧ e.reg = u) →
      visit_plain_inst env st regs inst op =
        .ok (emit_spills env stC regsE inst rrs) ∧
      (emit_spills env stC regsE inst rrs).2.registers = regs.registers) ∧
    (∀ (env : MEnv) (st : FuncState) (regs : Regs) (inst : Inst)
       (triples : List (Nat × Value × Value)) (st' : FuncState) (regs' : Regs),
      branch_arg_loop env st regs inst triples = .ok (st', regs') →
      regs'.registers = regs.registers) := by
  constructor
  · intro env st regs inst op cc ras regsB stC regsC rrs regsE
      henc hB hC hE hflagIn hflagOut hFIsub hFOsub hlenIn hlenOut hnodup
      htied hFOdisj hconvFT
    have hrun : visit_plain_inst env st regs inst op =
        .ok (emit_spills env stC regsE inst rrs) := by
      rw [visit_plain_inst]
      dsimp only
      rw [henc, hB]
      dsimp only
      rw [hC]
      dsimp only
      rw [hE]
    refine ⟨hrun, ?_⟩
    -- phase A: the fixed input units are reserved
    have hA : (reserve_fixed_ins (some cc) regs).registers =
        regs.registers \ fixedInUnits cc.ins := by
      rw [reserve_fixed_ins]
      cases hfi : cc.fixed_ins with
      | true => rw [if_pos rfl, reserve_fixed_ins_list_registers]
      | false =>
        rw [if_neg (by simp), hflagIn hfi, Finset.sdiff_empty]
    -- phase D: the fixed output units are reserved
    have hD : (reserve_fixed_outs (some cc) regsC).registers =
        regsC.registers \ fixedOutUnits cc.outs := by
      rw [reserve_fixed_outs]
      cases hfo : cc.fixed_outs with
      | true => rw [if_pos rfl, reserve_fixed_outs_list_registers]
      | false =>
        rw [if_neg (by simp), hflagOut hfo, Finset.sdiff_empty]
    obtain ⟨T, hB1, hB2, hB3, hB4, hB5, hB6, hB7⟩ := assign_ins_spec hB
    rw [hA] at hB1 hB2
    have hCreg : regsC.registers = regsB.registers ∪ nontiedRegs ras := by
      have hfr := emit_fills_registers env st regsB inst ras
      rw [hC] at hfr
      exact hfr
    obtain ⟨OT, hE1, hE2, hE3, hE4, hE5, hE6⟩ := assign_outs_spec hE
    rw [hD] at hE1 hE2
    have hfin : (emit_spills env stC regsE inst rrs).2.registers =
        regsE.registers ∪ resultRegs rrs :=
      emit_spills_registers env stC regsE inst rrs
    -- reg-injectivity of the reg_args entries
    have hinjras : ∀ e1 ∈ ras, ∀ e2 ∈ ras, e1.reg = e2.reg → e1 = e2 :=
      fun e1 h1 e2 h2 hr => List.inj_on_of_nodup_map hnodup h1 h2 hr
    -- every entry's register was removed in phase A or B
    have hEntryIn : ∀ e ∈ ras, e.reg ∈ fixedInUnits cc.ins ∪ T := by
      intro e he
      obtain ⟨c, hget, _, hprop⟩ := hB4 e he
      cases hk : c.kind with
      | reg =>
        rw [hk] at hprop
        exact Finset.mem_union_right _ hprop.1
      | tied i =>
        rw [hk] at hprop
        exact Finset.mem_union_right _ hprop.1
      | fixedReg u =>
        rw [hk] at hprop
        refine Finset.mem_union_left _ (mem_fixedInUnits.mpr ⟨e.k, c, hget, ?_⟩)
        rw [hk, hprop.1]
        exact Or.inl rfl
      | fixedTied u =>
        rw [hk] at hprop
        refine Finset.mem_union_left _ (mem_fixedInUnits.mpr ⟨e.k, c, hget, ?_⟩)
        rw [hk, hprop.1]
        exact Or.inr rfl
      | stack =>
        rw [hk] at hprop
        cases hprop
    have hFITsub : fixedInUnits cc.ins ∪ T ⊆ regs.registers := by
      intro r hr
      rcases Finset.mem_union.mp hr with hr | hr
      · exact hFIsub hr
      · exact (Finset.mem_sdiff.mp (hB2 hr)).1
    have hNTsub : nontiedRegs ras ⊆ regs.registers := by
      intro r hr
      obtain ⟨e, he, _, hre⟩ := mem_nontiedRegs.mp hr
      exact hFITsub (hre ▸ hEntryIn e he)
    have hPTsub : tiedRegs ras ⊆ regs.registers := by
      intro r hr
      obtain ⟨e, he, _, hre⟩ := mem_tiedRegs.mp hr
      exact hFITsub (hre ▸ hEntryIn e he)
    -- the removed registers are exactly the entry registers
    have hRemoved : fixedInUnits cc.ins ∪ T ⊆ nontiedRegs ras ∪ tiedRegs ras := by
      intro r hr
      rcases Finset.mem_union.mp hr with hr | hr
      · obtain ⟨j, c, hget, hor⟩ := mem_fixedInUnits.mp hr
        have hjlt : j < cc.ins.length := by
          by_contra hge
          rw [List.get?_eq_none.mpr (le_of_not_lt hge)] at hget
          cases hget
        have hjlt2 : j < 0 + (st.instData inst).args.length := by
          rw [hlenIn]; omega
        obtain ⟨c', hget', hc2⟩ := hB5 j (Nat.zero_le j) hjlt2
        rw [hget] at hget'
        injection hget' with hcc
        subst hcc
        rcases hc2 with hstk | ⟨e, he, hek⟩
        · rcases hor with hor | hor <;> rw [hor] at hstk <;> cases hstk
        · obtain ⟨c'', hget'', _, hprop⟩ := hB4 e he
          rw [hek, hget] at hget''
          injection hget'' with hcc
          subst hcc
          rcases hor with hor | hor
          · rw [hor] at hprop
            exact Finset.mem_union_left _
              (mem_nontiedRegs.mpr ⟨e, he, hprop.2, hprop.1⟩)
          · rw [hor] at hprop
            exact Finset.mem_union_right _
              (mem_tiedRegs.mpr ⟨e, he, hprop.2, hprop.1⟩)
      · obtain ⟨e, he, hre⟩ := hB3 r hr
        cases hti : e.is_tied with
        | false =>
          exact Finset.mem_union_left _ (mem_nontiedRegs.mpr ⟨e, he, hti, hre⟩)
        | true =>
          exact Finset.mem_union_right _ (mem_tiedRegs.mpr ⟨e, he, hti, hre⟩)
    -- tied and untied entry registers are disjoint
    have hNTPT : ∀ r, r ∈ nontiedRegs ras → r ∈ tiedRegs ras → False := by
      intro r h1 h2
      obtain ⟨e1, he1, ht1, hr1⟩ := mem_nontiedRegs.mp h1
      obtain ⟨e2, he2, ht2, hr2⟩ := mem_tiedRegs.mp h2
      have : e1 = e2 := hinjras e1 he1 e2 he2 (by rw [hr1, hr2])
      rw [this, ht2] at ht1
      cases ht1
    -- after the fills: exactly the tied registers are still out
    have hK3 : regsC.registers = regs.registers \ tiedRegs ras := by
      rw [hCreg, hB1]
      ext r
      simp only [Finset.mem_union, Finset.mem_sdiff]
      constructor
      · rintro (⟨⟨hrS, hrFI⟩, hrT⟩ | hrNT)
        · refine ⟨hrS, ?_⟩
          intro hrPT
          obtain ⟨e, he, _, hre⟩ := mem_tiedRegs.mp hrPT
          rcases Finset.mem_union.mp (hre ▸ hEntryIn e he) with hx | hx
          · exact hrFI hx
          · exact hrT hx
        · refine ⟨hNTsub hrNT, fun hrPT => hNTPT r hrNT hrPT⟩
      · rintro ⟨hrS, hrPT⟩
        by_cases hFI : r ∈ fixedInUnits cc.ins
        · rcases Finset.mem_union.mp (hRemoved (Finset.mem_union_left _ hFI)) with
            hx | hx
          · exact Or.inr hx
          · exact absurd hx hrPT
        · by_cases hT : r ∈ T
          · rcases Finset.mem_union.mp (hRemoved (Finset.mem_union_right _ hT)) with
              hx | hx
            · exact Or.inr hx
            · exact absurd hx hrPT
          · exact Or.inl ⟨⟨hrS, hFI⟩, hT⟩
    -- after the output assignment
    have hK5 : regsE.registers =
        regs.registers \ (tiedRegs ras ∪ fixedOutUnits cc.outs ∪ OT) := by
      rw [hE1, hK3]
      ext r
      simp only [Finset.mem_sdiff, Finset.mem_union]
      tauto
    -- the result registers cover everything still out
    have hOTsub : OT ⊆ resultRegs rrs := by
      intro r hr
      obtain ⟨rr, hrr, hre⟩ := hE3 r hr
      exact mem_resultRegs.mpr ⟨rr, hrr, hre⟩
    have hFOsubRR : fixedOutUnits cc.outs ⊆ resultRegs rrs := by
      intro u hu
      obtain ⟨j, c, hget, hkind⟩ := mem_fixedOutUnits.mp hu
      have hjlt : j < cc.outs.length := by
        by_contra hge
        rw [List.get?_eq_none.mpr (le_of_not_lt hge)] at hget
        cases hget
      have hjlt2 : j < 0 + (stC.instResults inst).length := by
        rw [hlenOut]; omega
      obtain ⟨rr, hrr, hrk⟩ := hE5 j (Nat.zero_le j) hjlt2
      obtain ⟨c', hget', hprop⟩ := hE4 rr hrr
      rw [hrk, hget] at hget'
      injection hget' with hcc
      subst hcc
      rw [hkind] at hprop
      exact mem_resultRegs.mpr ⟨rr, hrr, hprop⟩
    have hPTsubRR : tiedRegs ras ⊆ resultRegs rrs := by
      intro r hr
      obtain ⟨e, he, hti, hre⟩ := mem_tiedRegs.mp hr
      obtain ⟨j, c, hget, hor⟩ := htied e he hti
      have hjlt : j < cc.outs.length := by
        by_contra hge
        rw [List.get?_eq_none.mpr (le_of_not_lt hge)] at hget
        cases hget
      have hjlt2 : j < 0 + (stC.instResults inst).length := by
        rw [hlenOut]; omega
      obtain ⟨rr, hrr, hrk⟩ := hE5 j (Nat.zero_le j) hjlt2
      obtain ⟨c', hget', hprop⟩ := hE4 rr hrr
      rw [hrk, hget] at hget'
      injection hget' with hcc
      subst hcc
      rcases hor with hor | hor
      · rw [hor] at hprop
        obtain ⟨e', hfind, _, hre', _⟩ := hprop
        rw [find_k_of_pairwise hB7 he] at hfind
        injection hfind with hee
        subst hee
        exact mem_resultRegs.mpr ⟨rr, hrr, by rw [hre', hre]⟩
      · rw [hor] at hprop
        exact mem_resultRegs.mpr ⟨rr, hrr, by rw [hprop, hre]⟩
    have hRRsub : resultRegs rrs ⊆ regs.registers := by
      intro r hr
      obtain ⟨rr, hrr, hre⟩ := mem_resultRegs.mp hr
      obtain ⟨c, hget, hprop⟩ := hE4 rr hrr
      cases hk : c.kind with
      | reg =>
        rw [hk] at hprop
        have := hE2 hprop
        rw [hK3] at this
        have h1 := Finset.mem_sdiff.mp this
        have h2 := Finset.mem_sdiff.mp h1.1
        exact hre ▸ h2.1
      | fixedReg u =>
        rw [hk] at hprop
        have hu : u ∈ fixedOutUnits cc.outs :=
          mem_fixedOutUnits.mpr ⟨rr.k, c, hget, hk⟩
        exact hre ▸ hprop ▸ hFOsub hu
      | fixedTied u =>
        rw [hk] at hprop
        obtain ⟨e, he, hti, hreu⟩ := hconvFT rr.k c u hget hk
        have : u ∈ tiedRegs ras := mem_tiedRegs.mpr ⟨e, he, hti, hreu⟩
        exact hre ▸ hprop ▸ hPTsub this
      | tied i =>
        rw [hk] at hprop
        obtain ⟨e, hfind, hti, hre', _⟩ := hprop
        have he : e ∈ ras := List.mem_of_find?_eq_some hfind
        have : e.reg ∈ tiedRegs ras := mem_tiedRegs.mpr ⟨e, he, hti, rfl⟩
        exact hre ▸ hre' ▸ hPTsub this
      | stack =>
        rw [hk] at hprop
        cases hprop
    -- assemble
    rw [hfin, hK5]
    ext r
    simp only [Finset.mem_union, Finset.mem_sdiff]
    constructor
    · rintro (⟨hrS, _⟩ | hrRR)
      · exact hrS
      · exact hRRsub hrRR
    · intro hrS
      by_cases hout : r ∈ tiedRegs ras ∪ fixedOutUnits cc.outs ∪ OT
      · rcases Finset.mem_union.mp hout with hout | hout
        · rcases Finset.mem_union.mp hout with hout | hout
          · exact Or.inr (hPTsubRR hout)
          · exact Or.inr (hFOsubRR hout)
        · exact Or.inr (hOTsub hout)
      · refine Or.inl ⟨hrS, fun hx => hout ?_⟩
        rw [Finset.mem_union, Finset.mem_union]
        tauto
  · intro env st regs inst triples
    induction triples generalizing st regs with
    | nil =>
      intro st' regs' h
      rw [branch_arg_loop] at h
      obtain ⟨_, h2⟩ := Prod.mk.injEq .. ▸ Except.ok.injEq .. ▸ h
      rw [← h2]
    | cons t rest ih =>
      obtain ⟨k, arg, target_arg⟩ := t
      intro st' regs' h
      rw [branch_arg_loop] at h
      cases htake : regs.take env.classes env.spill_ins_rc with
      | mk or regs1 =>
        cases or with
        | none => rw [htake] at h; dsimp only at h; cases h
        | some r =>
          rw [htake] at h
          dsimp only at h
          obtain ⟨hrmem, hrerase⟩ := Regs.take_some htake
          have := ih _ _ _ _ h
          rw [this]
          show (insert r regs1.registers) = regs.registers
          rw [hrerase]
          exact Finset.insert_erase hrmem

/-- A tied two-address add used to exercise the register-balance
theorem: two stack-resident inputs, input 0 tied, one `Tied(0)` output. -/
def c7aCons : OperandConstraints :=
  ⟨[⟨.tied 0, 0⟩, ⟨.reg, 0⟩], [⟨.tied 0, 0⟩], false, false⟩

def c7aState : FuncState :=
  { baseState with
    instData := upd baseState.instData 0 (.multi [1, 2])
    instResults := upd baseState.instResults 0 [3]
    encodings := upd baseState.encodings 0 (some c7aCons)
    locations := upd (upd baseState.locations 1 (.stack 0)) 2 (.stack 1) }

/-- The `reg_args` the input assignment produces on `c7aState`. -/
def c7aRas : List RegArg := [⟨0, 1, 0, 0, true⟩, ⟨1, 2, 0, 1, false⟩]

/-- The state and register set after the fill phase on `c7aState`. -/
def c7aFills : FuncState × Regs := emit_fills baseEnv c7aState ⟨{2, 3}⟩ 0 c7aRas

/-- A concrete run of the branch fill/spill loop. -/
def c7aLoop : FuncState × Regs :=
  match branch_arg_loop baseEnv baseState ⟨{0, 1, 2, 3}⟩ 0 [(0, 8, 9)] with
  | .ok p => p
  | .error _ => (baseState, ⟨{0, 1, 2, 3}⟩)

/-- Witness for the amended C7: on a tied two-address instruction the
free register set after `visit_plain_inst` equals the full set before
it, and the branch argument loop also restores its register set. -/
theorem minimal_c7_amended_witness :
    (visit_plain_inst baseEnv c7aState ⟨{0, 1, 2, 3}⟩ 0 .plainOp =
       .ok (emit_spills baseEnv c7aFills.1 ⟨{1, 2, 3}⟩ 0 [⟨0, 3, 0, 0⟩]) ∧
     (emit_spills baseEnv c7aFills.1 ⟨{1, 2, 3}⟩ 0 [⟨0, 3, 0, 0⟩]).2.registers =
       (Regs.mk {0, 1, 2, 3}).registers) ∧
    branch_arg_loop baseEnv baseState ⟨{0, 1, 2, 3}⟩ 0 [(0, 8, 9)] =
      .ok (c7aLoop.1, c7aLoop.2) ∧
    c7aLoop.2.registers = (Regs.mk {0, 1, 2, 3}).registers := by
  have htiedW : ∀ e ∈ c7aRas, e.is_tied = true →
      ∃ j c, c7aCons.outs.get? j = some c ∧
        (c.kind = ConstraintKind.tied e.k ∨
         c.kind = ConstraintKind.fixedTied e.reg) := by
    intro e he hti
    rcases List.mem_cons.mp he with rfl | he'
    · exact ⟨0, ⟨.tied 0, 0⟩, rfl, Or.inl rfl⟩
    · rcases List.mem_singleton.mp he' with rfl
      cases hti
  have hdisjW : ∀ e ∈ c7aRas, e.is_tied = true →
      e.reg ∉ fixedOutUnits c7aCons.outs := by
    intro e _ _ hmem
    rw [show fixedOutUnits c7aCons.outs = ∅ from rfl] at hmem
    exact Finset.not_mem_empty _ hmem
  have hconvW : ∀ (j : Nat) (c : OperandConstraint) (u : RegUnit),
      c7aCons.outs.get? j = some c → c.kind = ConstraintKind.fixedTied u →
      ∃ e ∈ c7aRas, e.is_tied = true ∧ e.reg = u := by
    intro j c u hget hk
    cases j with
    | zero =>
      injection hget with h
      subst h
      cases hk
    | succ j' => cases hget
  have hloop : branch_arg_loop baseEnv baseState ⟨{0, 1, 2, 3}⟩ 0 [(0, 8, 9)] =
      .ok (c7aLoop.1, c7aLoop.2) := rfl
  refine ⟨?_, hloop, ?_⟩
  · exact minimal_c7_amended.1 baseEnv c7aState ⟨{0, 1, 2, 3}⟩ 0 .plainOp c7aCons
      c7aRas ⟨{2, 3}⟩ c7aFills.1 c7aFills.2 [⟨0, 3, 0, 0⟩] ⟨{1, 2, 3}⟩
      rfl rfl rfl rfl (fun _ => rfl) (fun _ => rfl) (by decide) (by decide)
      rfl rfl (by decide) htiedW hdisjW hconvW
  · exact minimal_c7_amended.2 baseEnv baseState ⟨{0, 1, 2, 3}⟩ 0 [(0, 8, 9)]
      c7aLoop.1 c7aLoop.2 hloop

/-! ## C5: copies around calls -/

/-- The register-affine live-through values, in tracker order — the
values the copy loops of `inst_insert_temps` process. -/
def regValues (ths : List LiveValue) : List Value :=
  (ths.filter (fun lv => lv.is_reg)).map LiveValue.value

/-- The `new_names` of the rename-table entry for `v`, empty when there
is no entry. -/
def entry_names (renamed : Renamed) (v : Value) : List Value :=
  match renamed_get renamed v with
  | some r => r.new_names
  | none => []

/-- The `uses` of the rename-table entry for `v`, empty when there is no
entry. -/
def entry_uses (renamed : Renamed) (v : Value) : List Inst :=
  match renamed_get renamed v with
  | some r => r.uses
  | none => []

theorem range_map_add_succ (n m : Nat) :
    (List.range (m + 1)).map (fun i => n + i) =
      n :: (List.range m).map (fun i => n + 1 + i) := by
  rw [List.range_succ_eq_map, List.map_cons, List.map_map]
  refine congrArg₂ _ (by omega) ?_
  refine List.map_congr_left (fun i _ => ?_)
  simp only [Function.comp]
  omega

/-- What the first loop of `inst_insert_temps` produces: one fresh temp
per register-affine live-through value, a `(temp, source)` copy recorded
before the call for each, in order. -/
theorem make_temps_spec (ths : List LiveValue) : ∀ (st : CopyState),
    make_temps st ths =
      ((List.range (regValues ths).length).map (fun i => st.nextValue + i),
       { nextValue := st.nextValue + (regValues ths).length
         copies_before := st.copies_before ++
           (((List.range (regValues ths).length).map
               (fun i => st.nextValue + i)).zip (regValues ths))
         copies_after := st.copies_after }) := by
  induction ths with
  | nil =>
    intro st
    cases st
    simp [make_temps, regValues]
  | cons lv rest ih =>
    intro st
    by_cases hreg : lv.is_reg
    · have hrv : regValues (lv :: rest) = lv.value :: regValues rest := by
        simp [regValues, List.filter_cons, hreg]
      rw [make_temps, if_pos hreg]
      dsimp only
      rw [ih]
      dsimp only
      rw [hrv]
      simp only [List.length_cons, range_map_add_succ, List.zip_cons_cons,
        List.map_cons]
      rw [List.append_assoc, List.singleton_append]
      have harith : st.nextValue + 1 + (regValues rest).length =
          st.nextValue + ((regValues rest).length + 1) := by omega
      rw [harith]
    · have hrv : regValues (lv :: rest) = regValues rest := by
        simp [regValues, List.filter_cons, hreg]
      rw [make_temps, if_neg hreg, ih, hrv]

/-- A failed search over a prefix continues in the suffix. -/
theorem find?_append_of_none {α : Type} (p : α → Bool) (l1 l2 : List α)
    (h : l1.find? p = none) : (l1 ++ l2).find? p = l2.find? p := by
  induction l1 with
  | nil => rfl
  | cons a l1' ih =>
    rw [List.find?_cons] at h
    cases hpa : p a with
    | true => rw [hpa] at h; cases h
    | false =>
      rw [hpa] at h
      rw [List.cons_append, List.find?_cons, hpa]
      exact ih h

/-- Searching the key being recorded in the mapped table finds the
updated version of the entry the original search found. -/
theorem find?_map_record (R : Renamed) (v w : Value) :
    (R.map (fun r => if r.value == v then
        { r with new_names := r.new_names ++ [w] } else r)).find?
      (fun r => r.value == v) =
    (R.find? (fun r => r.value == v)).map
      (fun r => { r with new_names := r.new_names ++ [w] }) := by
  induction R with
  | nil => rfl
  | cons r R' ih =>
    rw [List.map_cons, List.find?_cons, List.find?_cons]
    by_cases h : (r.value == v) = true
    · rw [if_pos h]
      have hval : (({ r with new_names := r.new_names ++ [w] } :
          RenamedValue).value == v) = true := h
      rw [hval]
      rfl
    · have h2 : (r.value == v) = false := by simpa using h
      rw [if_neg h, h2]
      exact ih

/-- Searching a different key in the mapped table is unaffected. -/
theorem find?_map_record_other (R : Renamed) (v w v' : Value) (hne : v' ≠ v) :
    (R.map (fun r => if r.value == v then
        { r with new_names := r.new_names ++ [w] } else r)).find?
      (fun r => r.value == v') =
    R.find? (fun r => r.value == v') := by
  induction R with
  | nil => rfl
  | cons r R' ih =>
    rw [List.map_cons, List.find?_cons, List.find?_cons]
    by_cases hrv : (r.value == v) = true
    · have hrvv : r.value = v := by simpa using hrv
      rw [if_pos hrv]
      have hval : (({ r with new_names := r.new_names ++ [w] } :
          RenamedValue).value == v') = (r.value == v') := rfl
      rw [hval]
      have hfalse : (r.value == v') = false := by
        rw [hrvv]
        simp
        exact fun h => hne h.symm
      rw [hfalse]
      exact ih
    · rw [if_neg hrv]
      by_cases h' : (r.value == v') = true
      · rw [h']
      · have h2 : (r.value == v') = false := by simpa using h'
        rw [h2]
        exact ih

/-- A successful search over a prefix also succeeds over the
concatenation. -/
theorem find?_append_some {α : Type} (p : α → Bool) (l1 l2 : List α) (a : α)
    (h : l1.find? p = some a) : (l1 ++ l2).find? p = some a := by
  induction l1 with
  | nil => cases h
  | cons x l1' ih =>
    rw [List.cons_append, List.find?_cons]
    rw [List.find?_cons] at h
    by_cases hx : p x = true
    · rw [hx] at h
      rw [hx]
      exact h
    · have hx2 : p x = false := by simpa using hx
      rw [hx2] at h
      rw [hx2]
      exact ih h

/-- Looking up the key just recorded: the entry exists and its
`new_names` end with the recorded copy. -/
theorem renamed_get_record_same (R : Renamed) (v w : Value) :
    renamed_get (renamed_record R v w) v =
      some ⟨v, entry_names R v ++ [w], entry_uses R v⟩ := by
  rw [renamed_record]
  cases hfind : R.find? (fun r => r.value == v) with
  | none =>
    rw [if_neg (by simp)]
    rw [renamed_get, find?_append_of_none _ _ _ hfind]
    rw [List.find?_cons]
    have hself : ((⟨v, [w], []⟩ : RenamedValue).value == v) = true := by simp
    rw [hself]
    simp [entry_names, entry_uses, renamed_get, hfind]
  | some r0 =>
    rw [if_pos (by rfl)]
    rw [renamed_get, find?_map_record, hfind]
    have h0 : renamed_get R v = some r0 := hfind
    have hval : r0.value = v := by
      have hp := List.find?_some hfind
      simpa using hp
    simp only [entry_names, entry_uses, h0]
    rw [Option.map_some']
    cases r0
    simp only at hval
    rw [hval]

/-- Recording under one key leaves every other key's entry unchanged. -/
theorem renamed_get_record_other (R : Renamed) (v w v' : Value) (hne : v' ≠ v) :
    renamed_get (renamed_record R v w) v' = renamed_get R v' := by
  rw [renamed_record]
  cases hfind : R.find? (fun r => r.value == v) with
  | none =>
    rw [if_neg (by simp)]
    rw [renamed_get, renamed_get]
    cases hfind' : R.find? (fun r => r.value == v') with
    | some r1 => rw [find?_append_some _ _ _ _ hfind']
    | none =>
      rw [find?_append_of_none _ _ _ hfind', List.find?_cons]
      have hnetail : ((⟨v, [w], []⟩ : RenamedValue).value == v') = false := by
        simp
        exact fun h => hne h.symm
      rw [hnetail]
      rfl
  | some r0 =>
    rw [if_pos (by rfl)]
    rw [renamed_get, find?_map_record_other R v w v' hne]
    rfl

theorem entry_names_record_other (R : Renamed) (v w v' : Value) (hne : v' ≠ v) :
    entry_names (renamed_record R v w) v' = entry_names R v' := by
  unfold entry_names
  rw [renamed_get_record_other R v w v' hne]

theorem entry_uses_record_other (R : Renamed) (v w v' : Value) (hne : v' ≠ v) :
    entry_uses (renamed_record R v w) v' = entry_uses R v' := by
  unfold entry_uses
  rw [renamed_get_record_other R v w v' hne]

/-- What the second loop of `inst_insert_temps` produces: one fresh
post-call copy per register-affine live-through value in the same order,
consuming the temps in order, each copy recorded in the rename table
under the original value. -/
theorem make_copies_spec (ths : List LiveValue) :
    ∀ (st : CopyState) (renamed : Renamed) (ts : List Value)
      (st' : CopyState) (renamed' : Renamed),
      (regValues ths).Nodup →
      make_copies st renamed ts ths = .ok (st', renamed') →
      st'.nextValue = st.nextValue + (regValues ths).length ∧
      st'.copies_before = st.copies_before ∧
      st'.copies_after = st.copies_after ++
        (((List.range (regValues ths).length).map
            (fun i => st.nextValue + i)).zip ts) ∧
      (∀ i v, (regValues ths).get? i = some v →
        renamed_get renamed' v = some
          ⟨v, entry_names renamed v ++ [st.nextValue + i],
            entry_uses renamed v⟩) ∧
      (∀ v, v ∉ regValues ths → renamed_get renamed' v = renamed_get renamed v) := by
  induction ths with
  | nil =>
    intro st renamed ts st' renamed' hnd h
    rw [make_copies.eq_def] at h
    dsimp only at h
    obtain ⟨h1, h2⟩ := Prod.mk.injEq .. ▸ Except.ok.injEq .. ▸ h
    subst h1; subst h2
    refine ⟨by simp [regValues], rfl, by simp [regValues], ?_, fun v _ => rfl⟩
    intro i v hv
    simp [regValues] at hv
  | cons lv rest ih =>
    intro st renamed ts st' renamed' hnd h
    rw [make_copies.eq_def] at h
    dsimp only at h
    by_cases hreg : lv.is_reg
    · rw [if_pos hreg] at h
      cases ts with
      | nil => dsimp only at h; cases h
      | cons t ts' =>
        dsimp only at h
        have hrv : regValues (lv :: rest) = lv.value :: regValues rest := by
          simp [regValues, List.filter_cons, hreg]
        rw [hrv] at hnd
        obtain ⟨hhead, hndrest⟩ := List.nodup_cons.mp hnd
        obtain ⟨g1, g2, g3, g4, g5⟩ := ih _ _ _ _ _ hndrest h
        rw [hrv]
        refine ⟨?_, ?_, ?_, ?_, ?_⟩
        · rw [g1]
          simp only [List.length_cons]
          omega
        · rw [g2]
        · rw [g3]
          dsimp only
          rw [List.length_cons, range_map_add_succ, List.zip_cons_cons]
          rw [List.append_assoc, List.singleton_append]
        · intro i v hv
          cases i with
          | zero =>
            rw [List.get?_cons_zero] at hv
            injection hv with hv0
            subst hv0
            rw [g5 lv.value hhead]
            have hsame := renamed_get_record_same renamed lv.value st.nextValue
            rw [hsame]
            simp
          | succ i' =>
            rw [List.get?_cons_succ] at hv
            have hvmem : v ∈ regValues rest := List.get?_mem hv
            have hvne : v ≠ lv.value := fun hx => hhead (hx ▸ hvmem)
            have hstep := g4 i' v hv
            rw [entry_names_record_other renamed lv.value st.nextValue v hvne,
              entry_uses_record_other renamed lv.value st.nextValue v hvne] at hstep
            rw [hstep]
            have : st.nextValue + 1 + i' = st.nextValue + (i' + 1) := by omega
            rw [show ({ st with
                nextValue := st.nextValue + 1
                copies_after := st.copies_after ++ [(st.nextValue, t)] } :
                  CopyState).nextValue = st.nextValue + 1 from rfl]
            rw [this]
        · intro v hv
          have hvne : v ≠ lv.value := fun hx => hv (hx ▸ List.mem_cons_self _ _)
          have hvrest : v ∉ regValues rest :=
            fun hx => hv (List.mem_cons_of_mem _ hx)
          rw [g5 v hvrest]
          exact renamed_get_record_other renamed lv.value st.nextValue v hvne
    · rw [if_neg hreg] at h
      have hrv : regValues (lv :: rest) = regValues rest := by
        simp [regValues, List.filter_cons, hreg]
      rw [hrv] at hnd ⊢
      exact ih st renamed ts st' renamed' hnd h

/-- C5: at every call site (`call_signature` present), for every
register-affine live-through value `v`, `inst_insert_temps` inserts
`s = copy v` immediately before the call and `w = copy s` immediately
after it, processing the values in the same order in both loops (the
`k`-th post-call copy reads the `k`-th temp), and appends `w` to the
rename table entry keyed by `v`, creating the entry when absent. -/
theorem splitting_c5_insert_temps
    (st : CopyState) (renamed : Renamed) (sig : Option Nat)
    (throughs : List LiveValue) (st' : CopyState) (renamed' : Renamed)
    (hsig : sig.isSome = true)
    (hnd : (regValues throughs).Nodup)
    (hrun : inst_insert_temps st renamed sig throughs = .ok (st', renamed')) :
    st'.copies_before = st.copies_before ++
      (((List.range (regValues throughs).length).map
          (fun i => st.nextValue + i)).zip (regValues throughs)) ∧
    st'.copies_after = st.copies_after ++
      (((List.range (regValues throughs).length).map
          (fun i => st.nextValue + (regValues throughs).length + i)).zip
        ((List.range (regValues throughs).length).map
          (fun i => st.nextValue + i))) ∧
    (∀ i v, (regValues throughs).get? i = some v →
      renamed_get renamed' v = some
        ⟨v, entry_names renamed v ++
            [st.nextValue + (regValues throughs).length + i],
          entry_uses renamed v⟩) ∧
    (∀ v, v ∉ regValues throughs →
      renamed_get renamed' v = renamed_get renamed v) := by
  rw [inst_insert_temps, if_pos hsig] at hrun
  rw [make_temps_spec throughs st] at hrun
  dsimp only at hrun
  obtain ⟨g1, g2, g3, g4, g5⟩ := make_copies_spec throughs _ _ _ _ _ hnd hrun
  dsimp only at g1 g2 g3 g4 g5
  refine ⟨by rw [g2], by rw [g3], ?_, g5⟩
  intro i v hv
  rw [g4 i v hv]

/-- Live-through values at a concrete call: values `7` and `9` are
register affine, value `8` is not. -/
def c5Throughs : List LiveValue := [⟨7, true⟩, ⟨8, false⟩, ⟨9, true⟩]

/-- The run of `inst_insert_temps` at that call, with an existing rename
table entry for value `7`. -/
def c5Run : CopyState × Renamed :=
  match inst_insert_temps ⟨50, [], []⟩ [⟨7, [3], [4]⟩] (some 0) c5Throughs with
  | .ok p => p
  | .error _ => (⟨50, [], []⟩, [])

/-- Witness for C5: the copy-insertion theorem applied at a concrete
call with two register-affine live-through values. -/
theorem splitting_c5_insert_temps_witness :
    inst_insert_temps ⟨50, [], []⟩ [⟨7, [3], [4]⟩] (some 0) c5Throughs =
      .ok (c5Run.1, c5Run.2) ∧
    (c5Run.1.copies_before = [] ++
        (((List.range (regValues c5Throughs).length).map (fun i => 50 + i)).zip
          (regValues c5Throughs)) ∧
     c5Run.1.copies_after = [] ++
        (((List.range (regValues c5Throughs).length).map
            (fun i => 50 + (regValues c5Throughs).length + i)).zip
          ((List.range (regValues c5Throughs).length).map (fun i => 50 + i))) ∧
     (∀ i v, (regValues c5Throughs).get? i = some v →
        renamed_get c5Run.2 v = some
          ⟨v, entry_names [⟨7, [3], [4]⟩] v ++
              [50 + (regValues c5Throughs).length + i],
            entry_uses [⟨7, [3], [4]⟩] v⟩) ∧
     (∀ v, v ∉ regValues c5Throughs →
        renamed_get c5Run.2 v = renamed_get [⟨7, [3], [4]⟩] v)) := by
  refine ⟨rfl, ?_⟩
  exact splitting_c5_insert_temps ⟨50, [], []⟩ [⟨7, [3], [4]⟩] (some 0) c5Throughs
    c5Run.1 c5Run.2 rfl (by decide) rfl

/-! ## C4: critical-edge splitting in `visit_branch` -/

/-- The state produced by a successful `make_empty_ebb`: a fresh EBB with
no parameters and no instructions, inserted in the layout immediately
before the last EBB, with the `new_blocks` flag raised. -/
def ebb_split_state (st : FuncState) (last : Ebb) : FuncState :=
  { st with
    nextEbb := st.nextEbb + 1
    ebbParams := upd st.ebbParams st.nextEbb []
    ebbInsts := upd st.ebbInsts st.nextEbb []
    layout := st.layout.dropLast ++ [st.nextEbb, last]
    newBlocks := true }

/-- A nonempty layout makes `make_empty_ebb` succeed with the fresh EBB
id and the split state. -/
theorem make_empty_ebb_eq (st : FuncState) (last : Ebb)
    (h : st.layout.getLast? = some last) :
    make_empty_ebb st = .ok (st.nextEbb, ebb_split_state st last) := by
  rw [make_empty_ebb, h]
  rfl

/-- The branch destination of an instruction's data (the `destination`
field of the branch shapes). -/
def branchDest : InstructionData → Option Ebb
  | .jump d _ => some d
  | .branch _ d _ => some d
  | .branchIcmp _ _ _ d _ => some d
  | .branchInt _ _ d _ => some d
  | .branchFloat _ _ d _ => some d
  | _ => none

/-- The fixed condition operands of a conditional branch (the arguments
that are not variable EBB arguments). -/
def condArgs : InstructionData → List Value
  | .branch c _ _ => [c]
  | .branchIcmp _ x y _ _ => [x, y]
  | .branchInt _ f _ _ => [f]
  | .branchFloat _ f _ _ => [f]
  | _ => []

/-- The data a side exit is rewritten to by `rewrite_side_exit`: the
same branch kind and condition operands, destination `e`, no variable
arguments. -/
def rewrittenData : InstructionData → Ebb → InstructionData
  | .branch c _ _, e => .branch c e []
  | .branchIcmp cc x y _ _, e => .branchIcmp cc x y e []
  | .branchInt cc f _ _, e => .branchInt cc f e []
  | .branchFloat cc f _ _, e => .branchFloat cc f e []
  | d, _ => d

/-- The opcode/data shapes that `classify_branch` reports as a
conditional side exit: `brz`/`brnz` on a plain branch, `br_icmp` on a
compare-and-branch, `brif` on an integer-flag branch and `brff` on a
float-flag branch, all targeting `target` with the variable arguments
`va`. -/
def SideExitShape (d : InstructionData) (opcode : Opcode) (target : Ebb)
    (va : List Value) : Prop :=
  ((opcode = .brz ∨ opcode = .brnz) ∧ ∃ c, d = .branch c target va) ∨
  (opcode = .brIcmp ∧ ∃ cc x y, d = .branchIcmp cc x y target va) ∨
  (opcode = .brif ∧ ∃ cc f, d = .branchInt cc f target va) ∨
  (opcode = .brff ∧ ∃ cc f, d = .branchFloat cc f target va)

/-- A side-exit shape carries exactly `va` as its variable arguments. -/
theorem side_exit_varargs (d : InstructionData) (opcode : Opcode) (target : Ebb)
    (va : List Value) (h : SideExitShape d opcode target va) : d.varargs = va := by
  rcases h with ⟨_, c, hd⟩ | ⟨_, cc, x, y, hd⟩ | ⟨_, cc, f, hd⟩ | ⟨_, cc, f, hd⟩
  · subst hd; rfl
  · subst hd; rfl
  · subst hd; rfl
  · subst hd; rfl

/-- Every side-exit shape is classified as a side exit with an
argument: `(Some (target, side_exit = true), has_argument = true)`. -/
theorem classify_side_exit (st : FuncState) (inst : Inst) (opcode : Opcode)
    (target : Ebb) (va : List Value)
    (h : SideExitShape (st.instData inst) opcode target va) :
    classify_branch st inst opcode = .ok (some (target, true), true) := by
  rcases h with ⟨hop, c, hd⟩ | ⟨hop, cc, x, y, hd⟩ | ⟨hop, cc, f, hd⟩ | ⟨hop, cc, f, hd⟩
  · rcases hop with rfl | rfl
    · rw [classify_branch, hd]
      dsimp only
      rw [if_pos (Or.inl rfl)]
    · rw [classify_branch, hd]
      dsimp only
      rw [if_pos (Or.inr rfl)]
  · subst hop
    rw [classify_branch, hd]
    rfl
  · subst hop
    rw [classify_branch, hd]
    rfl
  · subst hop
    rw [classify_branch, hd]
    rfl

/-- The state produced by `rewrite_side_exit` on a side exit: the
conditional is redirected to `e` with no variable arguments, keeping
its kind and condition operands. -/
def rse_state (st : FuncState) (inst : Inst) (e : Ebb) : FuncState :=
  { st with instData := upd st.instData inst (rewrittenData (st.instData inst) e) }

/-- On every side-exit shape, `rewrite_side_exit` succeeds and installs
exactly the rewritten data. -/
theorem rewrite_side_exit_eq (st : FuncState) (inst : Inst) (opcode : Opcode)
    (target : Ebb) (va : List Value) (e : Ebb)
    (h : SideExitShape (st.instData inst) opcode target va) :
    rewrite_side_exit st inst opcode e = .ok (rse_state st inst e) := by
  rcases h with ⟨hop, c, hd⟩ | ⟨hop, cc, x, y, hd⟩ | ⟨hop, cc, f, hd⟩ | ⟨hop, cc, f, hd⟩
  · rcases hop with rfl | rfl
    · rw [rewrite_side_exit, hd, rse_state, hd]
      rfl
    · rw [rewrite_side_exit, hd, rse_state, hd]
      rfl
  · subst hop
    rw [rewrite_side_exit, hd, rse_state, hd]
    rfl
  · subst hop
    rw [rewrite_side_exit, hd, rse_state, hd]
    rfl
  · subst hop
    rw [rewrite_side_exit, hd, rse_state, hd]
    rfl

/-- The rewritten side exit targets `e`, has no variable arguments and
keeps the condition operands. -/
theorem rewrittenData_spec (d : InstructionData) (opcode : Opcode) (target : Ebb)
    (va : List Value) (e : Ebb) (h : SideExitShape d opcode target va) :
    branchDest (rewrittenData d e) = some e ∧
    (rewrittenData d e).varargs = [] ∧
    condArgs (rewrittenData d e) = condArgs d := by
  rcases h with ⟨_, c, hd⟩ | ⟨_, cc, x, y, hd⟩ | ⟨_, cc, f, hd⟩ | ⟨_, cc, f, hd⟩
  · subst hd
    exact ⟨rfl, rfl, rfl⟩
  · subst hd
    exact ⟨rfl, rfl, rfl⟩
  · subst hd
    exact ⟨rfl, rfl, rfl⟩
  · subst hd
    exact ⟨rfl, rfl, rfl⟩

/-- Updating any argument of a branch with no variable arguments keeps
its destination and leaves it argumentless. -/
theorem setArg_keeps_dest (d : InstructionData) (e : Ebb) (k : Nat) (v : Value)
    (h1 : branchDest d = some e) (h2 : d.varargs = []) :
    branchDest (d.setArg k v) = some e ∧ (d.setArg k v).varargs = [] := by
  cases d with
  | indirectJump a => cases h1
  | unary a => cases h1
  | multi as => cases h1
  | jump dd vaL =>
    have hva : vaL = [] := h2
    subst hva
    cases k with
    | zero => exact ⟨h1, rfl⟩
    | succ n => exact ⟨h1, rfl⟩
  | branch c dd vaL =>
    have hva : vaL = [] := h2
    subst hva
    cases k with
    | zero => exact ⟨h1, rfl⟩
    | succ n => exact ⟨h1, rfl⟩
  | branchIcmp cc x y dd vaL =>
    have hva : vaL = [] := h2
    subst hva
    cases k with
    | zero => exact ⟨h1, rfl⟩
    | succ n =>
      cases n with
      | zero => exact ⟨h1, rfl⟩
      | succ m => exact ⟨h1, rfl⟩
  | branchInt cc f dd vaL =>
    have hva : vaL = [] := h2
    subst hva
    cases k with
    | zero => exact ⟨h1, rfl⟩
    | succ n => exact ⟨h1, rfl⟩
  | branchFloat cc f dd vaL =>
    have hva : vaL = [] := h2
    subst hva
    cases k with
    | zero => exact ⟨h1, rfl⟩
    | succ n => exact ⟨h1, rfl⟩

/-- Frame facts of `emit_fills`: the layout, the EBB structure, the
instruction and EBB counters, opcodes, encodings, results, the
`new_blocks` flag and every other instruction's data are untouched, and
an argumentless conditional keeps its destination. -/
theorem emit_fills_frame (env : MEnv) (inst : Inst) :
    ∀ (ras : List RegArg) (st : FuncState) (regs : Regs),
      (emit_fills env st regs inst ras).1.layout = st.layout ∧
      (emit_fills env st regs inst ras).1.ebbParams = st.ebbParams ∧
      (emit_fills env st regs inst ras).1.ebbInsts = st.ebbInsts ∧
      (emit_fills env st regs inst ras).1.nextEbb = st.nextEbb ∧
      (emit_fills env st regs inst ras).1.nextInst = st.nextInst ∧
      (emit_fills env st regs inst ras).1.instOpcode = st.instOpcode ∧
      (emit_fills env st regs inst ras).1.newBlocks = st.newBlocks ∧
      (∀ j, j ≠ inst → (emit_fills env st regs inst ras).1.instData j = st.instData j) ∧
      (∀ e, branchDest (st.instData inst) = some e → (st.instData inst).varargs = [] →
        branchDest ((emit_fills env st regs inst ras).1.instData inst) = some e ∧
        ((emit_fills env st regs inst ras).1.instData inst).varargs = []) := by
  intro ras
  induction ras with
  | nil =>
    intro st regs
    exact ⟨rfl, rfl, rfl, rfl, rfl, rfl, rfl, fun j _ => rfl, fun e h1 h2 => ⟨h1, h2⟩⟩
  | cons ra rest ih =>
    intro st regs
    rw [emit_fills]
    dsimp only
    by_cases hfl : env.type_flags (st.valueType ra.arg) = true
    · rw [if_pos hfl]
      exact ih _ _
    · rw [if_neg hfl]
      obtain ⟨g1, g2, g3, g4, g5, g6, g7, g8, g9⟩ := ih
        { st with
          nextValue := st.nextValue + 1
          valueType := upd st.valueType st.nextValue (st.valueType ra.arg)
          locations := upd st.locations st.nextValue (.reg ra.reg)
          instData := upd st.instData inst ((st.instData inst).setArg ra.k st.nextValue)
          emitted := st.emitted ++ [.fillBefore inst st.nextValue ra.arg] }
        (if ra.is_tied then regs else regs.free ra.rc ra.reg)
      refine ⟨g1, g2, g3, g4, g5, g6, g7, ?_, ?_⟩
      · intro j hj
        rw [g8 j hj]
        exact upd_of_ne _ _ hj
      · intro e h1 h2
        obtain ⟨p1, p2⟩ := setArg_keeps_dest (st.instData inst) e ra.k st.nextValue h1 h2
        refine g9 e ?_ ?_
        · have hx : branchDest (upd st.instData inst
              ((st.instData inst).setArg ra.k st.nextValue) inst) = some e := by
            rw [upd_same]
            exact p1
          exact hx
        · have hx : (upd st.instData inst
              ((st.instData inst).setArg ra.k st.nextValue) inst).varargs = [] := by
            rw [upd_same]
            exact p2
          exact hx

/-- Frame facts of `emit_spills`: the layout, the EBB structure, the
counters of instructions and EBBs, opcodes, encodings, the `new_blocks`
flag and all instruction data are untouched. -/
theorem emit_spills_frame (env : MEnv) (inst : Inst) :
    ∀ (rrs : List RegResult) (st : FuncState) (regs : Regs),
      (emit_spills env st regs inst rrs).1.layout = st.layout ∧
      (emit_spills env st regs inst rrs).1.ebbParams = st.ebbParams ∧
      (emit_spills env st regs inst rrs).1.ebbInsts = st.ebbInsts ∧
      (emit_spills env st regs inst rrs).1.nextEbb = st.nextEbb ∧
      (emit_spills env st regs inst rrs).1.nextInst = st.nextInst ∧
      (emit_spills env st regs inst rrs).1.instOpcode = st.instOpcode ∧
      (emit_spills env st regs inst rrs).1.newBlocks = st.newBlocks ∧
      (emit_spills env st regs inst rrs).1.instData = st.instData := by
  intro rrs
  induction rrs with
  | nil =>
    intro st regs
    exact ⟨rfl, rfl, rfl, rfl, rfl, rfl, rfl, rfl⟩
  | cons rr rest ih =>
    intro st regs
    rw [emit_spills]
    dsimp only [make_spill_slot]
    by_cases hfl : env.type_flags (st.valueType rr.result) = true
    · rw [if_pos hfl]
      exact ih _ _
    · rw [if_neg hfl]
      exact ih _ _

/-- Frame facts of a successful `visit_plain_inst`: the layout, the EBB
structure, the counters of instructions and EBBs, opcodes, the
`new_blocks` flag and every other instruction's data are untouched, and
an argumentless conditional keeps its destination. -/
theorem visit_plain_inst_frame (env : MEnv) (st : FuncState) (regs : Regs)
    (inst : Inst) (opcode : Opcode) (st3 : FuncState) (regs3 : Regs)
    (h : visit_plain_inst env st regs inst opcode = .ok (st3, regs3)) :
    st3.layout = st.layout ∧
    st3.ebbParams = st.ebbParams ∧
    st3.ebbInsts = st.ebbInsts ∧
    st3.nextEbb = st.nextEbb ∧
    st3.nextInst = st.nextInst ∧
    st3.instOpcode = st.instOpcode ∧
    st3.newBlocks = st.newBlocks ∧
    (∀ j, j ≠ inst → st3.instData j = st.instData j) ∧
    (∀ e, branchDest (st.instData inst) = some e → (st.instData inst).varargs = [] →
      branchDest (st3.instData inst) = some e ∧ (st3.instData inst).varargs = []) := by
  rw [visit_plain_inst] at h
  dsimp only at h
  cases hai : assign_ins env st (st.encodings inst) (st.instData inst).args 0
      (reserve_fixed_ins (st.encodings inst) regs) with
  | error e =>
    rw [hai] at h
    exact absurd h (by simp)
  | ok p =>
    obtain ⟨reg_args, regsB⟩ := p
    rw [hai] at h
    dsimp only at h
    cases hC : emit_fills env st regsB inst reg_args with
    | mk stC regsC =>
      rw [hC] at h
      dsimp only at h
      cases hao : assign_outs env (st.encodings inst) (stC.instResults inst) 0
          reg_args (reserve_fixed_outs (st.encodings inst) regsC) with
      | error e =>
        rw [hao] at h
        exact absurd h (by simp)
      | ok q =>
        obtain ⟨reg_results, regsE⟩ := q
        rw [hao] at h
        dsimp only at h
        have hpair : emit_spills env stC regsE inst reg_results = (st3, regs3) :=
          Except.ok.injEq .. ▸ h
        have hst3 : (emit_spills env stC regsE inst reg_results).1 = st3 := by
          rw [hpair]
        have hstC : (emit_fills env st regsB inst reg_args).1 = stC := by
          rw [hC]
        obtain ⟨f1, f2, f3, f4, f5, f6, f7, f8, f9⟩ :=
          emit_fills_frame env inst reg_args st regsB
        obtain ⟨s1, s2, s3, s4, s5, s6, s7, s8⟩ :=
          emit_spills_frame env inst reg_results stC regsE
        refine ⟨?_, ?_, ?_, ?_, ?_, ?_, ?_, ?_, ?_⟩
        · rw [← hst3, s1, ← hstC, f1]
        · rw [← hst3, s2, ← hstC, f2]
        · rw [← hst3, s3, ← hstC, f3]
        · rw [← hst3, s4, ← hstC, f4]
        · rw [← hst3, s5, ← hstC, f5]
        · rw [← hst3, s6, ← hstC, f6]
        · rw [← hst3, s7, ← hstC, f7]
        · intro j hj
          rw [← hst3, s8, ← hstC]
          exact f8 j hj
        · intro e he1 he2
          obtain ⟨p1, p2⟩ := f9 e he1 he2
          constructor
          · rw [← hst3, s8, ← hstC]
            exact p1
          · rw [← hst3, s8, ← hstC]
            exact p2

/-- Frame facts of `branch_arg_loop`: the layout, the EBB structure, the
counters of instructions and EBBs, opcodes, the `new_blocks` flag and
every other instruction's data are untouched; the rewritten jump keeps
its destination and earlier trace events survive. -/
theorem branch_arg_loop_frame (env : MEnv) (inst : Inst) :
    ∀ (infos : List (Nat × Value × Value)) (st : FuncState) (regs : Regs)
      (st' : FuncState) (regs' : Regs),
      branch_arg_loop env st regs inst infos = .ok (st', regs') →
      st'.layout = st.layout ∧
      st'.ebbParams = st.ebbParams ∧
      st'.ebbInsts = st.ebbInsts ∧
      st'.nextEbb = st.nextEbb ∧
      st'.nextInst = st.nextInst ∧
      st'.instOpcode = st.instOpcode ∧
      st'.newBlocks = st.newBlocks ∧
      (∀ j, j ≠ inst → st'.instData j = st.instData j) ∧
      (∀ t, (∃ va0, st.instData inst = .jump t va0) →
        ∃ va1, st'.instData inst = .jump t va1) ∧
      (∀ e ∈ st.emitted, e ∈ st'.emitted) := by
  intro infos
  induction infos with
  | nil =>
    intro st regs st' regs' h
    rw [branch_arg_loop] at h
    obtain ⟨h1, h2⟩ := Prod.mk.injEq .. ▸ Except.ok.injEq .. ▸ h
    subst h1
    exact ⟨rfl, rfl, rfl, rfl, rfl, rfl, rfl, fun j _ => rfl, fun t ht => ht,
      fun e he => he⟩
  | cons info rest ih =>
    intro st regs st' regs' h
    obtain ⟨k, arg, target_arg⟩ := info
    rw [branch_arg_loop] at h
    dsimp only at h
    cases htake : Regs.take regs env.classes env.spill_ins_rc with
    | mk o regs1 =>
      rw [htake] at h
      cases o with
      | none =>
        dsimp only at h
        exact absurd h (by simp)
      | some reg =>
        dsimp only at h
        obtain ⟨g1, g2, g3, g4, g5, g6, g7, g8, g9, g10⟩ := ih _ _ _ _ h
        refine ⟨g1, g2, g3, g4, g5, g6, g7, ?_, ?_, ?_⟩
        · intro j hj
          rw [g8 j hj]
          exact upd_of_ne _ _ hj
        · intro t ht
          obtain ⟨va0, hva0⟩ := ht
          refine g9 t ⟨va0.set k (st.nextValue + 1), ?_⟩
          have : upd st.instData inst ((st.instData inst).setArg k (st.nextValue + 1)) inst
              = .jump t (va0.set k (st.nextValue + 1)) := by
            rw [upd_same, hva0]
            cases k with
            | zero => rfl
            | succ n => rfl
          exact this
        · intro e he
          exact g10 e (List.mem_append_left _ he)

/-- C4: every conditional side exit (`brz`, `brnz`, `br_icmp`, `brif`
or `brff`) whose target EBB has at least one parameter is split.  The
run creates the fresh EBB `st.nextEbb` just before the last EBB in the
layout, leaves it without parameters, leaves the conditional as an
argumentless branch to the fresh EBB, makes the fresh EBB consist of
exactly the one inserted jump `st.nextInst`, which targets the original
EBB, and records that jump carrying the branch's saved variable
arguments in the trace; the rewrite step itself installs exactly the
redirected data, preserving the condition operands (last conjunct). -/
theorem minimal_c4_edge_split
    (env : MEnv) (st : FuncState) (regs : Regs) (inst : Inst) (opcode : Opcode)
    (target : Ebb) (va : List Value) (last : Ebb)
    (st' : FuncState) (regs' : Regs)
    (hshape : SideExitShape (st.instData inst) opcode target va)
    (hparams : st.ebbParams target ≠ [])
    (hlast : st.layout.getLast? = some last)
    (hfresh : inst < st.nextInst)
    (hrun : visit_branch env st regs inst opcode = .ok (st', regs')) :
    st'.layout = st.layout.dropLast ++ [st.nextEbb, last] ∧
    st'.ebbParams st.nextEbb = [] ∧
    (branchDest (st'.instData inst) = some st.nextEbb ∧
      (st'.instData inst).varargs = []) ∧
    st'.ebbInsts st.nextEbb = [st.nextInst] ∧
    (∃ va1, st'.instData st.nextInst = .jump target va1) ∧
    EmitEvent.jumpInserted st.nextInst st.nextEbb target va ∈ st'.emitted ∧
    st'.newBlocks = true ∧
    (∀ stX : FuncState, stX.instData inst = st.instData inst → ∀ e : Ebb,
      rewrite_side_exit stX inst opcode e =
        .ok { stX with
          instData := upd stX.instData inst (rewrittenData (st.instData inst) e) } ∧
      condArgs (rewrittenData (st.instData inst) e) = condArgs (st.instData inst) ∧
      branchDest (rewrittenData (st.instData inst) e) = some e ∧
      (rewrittenData (st.instData inst) e).varargs = []) := by
  have hva : (st.instData inst).varargs = va := side_exit_varargs _ _ _ _ hshape
  have hclass := classify_side_exit st inst opcode target va hshape
  rw [visit_branch, hclass] at hrun
  dsimp only at hrun
  have hcond : (true && decide (0 < (st.ebbParams target).length)) = true := by
    simp [List.length_pos.mpr hparams]
  rw [if_pos hcond] at hrun
  rw [hva] at hrun
  rw [make_empty_ebb_eq st last hlast] at hrun
  dsimp only at hrun
  rw [rewrite_side_exit_eq (ebb_split_state st last) inst opcode target va
    st.nextEbb hshape] at hrun
  dsimp only at hrun
  rw [if_pos rfl] at hrun
  cases hvp : visit_plain_inst env (rse_state (ebb_split_state st last) inst st.nextEbb)
      regs inst opcode with
  | error e =>
    rw [hvp] at hrun
    exact absurd hrun (by simp)
  | ok p =>
    obtain ⟨st3, regs3⟩ := p
    rw [hvp] at hrun
    dsimp only at hrun
    obtain ⟨f1, f2, f3, f4, f5, f6, f7, f8, f9⟩ :=
      visit_plain_inst_frame env (rse_state (ebb_split_state st last) inst st.nextEbb)
        regs inst opcode st3 regs3 hvp
    have f1x : st3.layout = st.layout.dropLast ++ [st.nextEbb, last] := f1
    have f2x : st3.ebbParams = upd st.ebbParams st.nextEbb [] := f2
    have f3x : st3.ebbInsts = upd st.ebbInsts st.nextEbb [] := f3
    have f5x : st3.nextInst = st.nextInst := f5
    have f7x : st3.newBlocks = true := f7
    obtain ⟨r1, r2, r3⟩ :=
      rewrittenData_spec (st.instData inst) opcode target va st.nextEbb hshape
    have hrse1 : branchDest (upd (ebb_split_state st last).instData inst
        (rewrittenData ((ebb_split_state st last).instData inst) st.nextEbb) inst)
        = some st.nextEbb := by
      rw [upd_same]
      exact r1
    have hrse2 : (upd (ebb_split_state st last).instData inst
        (rewrittenData ((ebb_split_state st last).instData inst) st.nextEbb)
        inst).varargs = [] := by
      rw [upd_same]
      exact r2
    have hshape3 : branchDest (st3.instData inst) = some st.nextEbb ∧
        (st3.instData inst).varargs = [] := f9 st.nextEbb hrse1 hrse2
    obtain ⟨g1, g2, g3, g4, g5, g6, g7, g8, g9, g10⟩ :=
      branch_arg_loop_frame env st3.nextInst _ _ _ _ _ hrun
    have hne : inst ≠ st3.nextInst := by
      rw [f5x]
      exact Nat.ne_of_lt hfresh
    refine ⟨?_, ?_, ?_, ?_, ?_, ?_, ?_, ?_⟩
    · have hx : st'.layout = st3.layout := g1
      exact hx.trans f1x
    · have hx : st'.ebbParams = st3.ebbParams := g2
      rw [hx, f2x]
      exact upd_same _ _ _
    · have hx : st'.instData inst = upd st3.instData st3.nextInst
          (.jump target va) inst := g8 inst hne
      have hy : st'.instData inst = st3.instData inst := by
        rw [hx, upd_of_ne _ _ hne]
      rw [hy]
      exact hshape3
    · have hx : st'.ebbInsts = upd st3.ebbInsts st.nextEbb
          (st3.ebbInsts st.nextEbb ++ [st3.nextInst]) := g3
      rw [hx, upd_same, f3x, upd_same, List.nil_append, f5x]
    · obtain ⟨va1, hva1⟩ := g9 target ⟨va, upd_same _ _ _⟩
      refine ⟨va1, ?_⟩
      rw [← f5x]
      exact hva1
    · have hx : EmitEvent.jumpInserted st3.nextInst st.nextEbb target va ∈ st'.emitted :=
        g10 _ (List.mem_append_right _ (List.mem_singleton.mpr rfl))
      rw [← f5x]
      exact hx
    · have hx : st'.newBlocks = st3.newBlocks := g7
      exact hx.trans f7x
    · intro stX hXd e
      have hsx : SideExitShape (stX.instData inst) opcode target va := by
        rw [hXd]
        exact hshape
      refine ⟨?_, ?_, ?_, ?_⟩
      · have hq := rewrite_side_exit_eq stX inst opcode target va e hsx
        rw [hq, rse_state, hXd]
      · exact (rewrittenData_spec (st.instData inst) opcode target va e hshape).2.2
      · exact (rewrittenData_spec (st.instData inst) opcode target va e hshape).1
      · exact (rewrittenData_spec (st.instData inst) opcode target va e hshape).2.1

/-- The state for the edge-splitting witness: instruction `0` is
`brz v7, ebb2(v11)`, the condition `v7` lives on the stack, the target
EBB `2` has the parameter `v9`, and the layout ends at EBB `3`. -/
def c4State : FuncState :=
  { baseState with
    instData := upd baseState.instData 0 (.branch 7 2 [11])
    encodings := upd baseState.encodings 0 (some ⟨[⟨.reg, 0⟩], [], false, false⟩)
    ebbParams := upd baseState.ebbParams 2 [9]
    locations := upd (upd baseState.locations 7 (.stack 0)) 9 (.stack 1)
    layout := [2, 3] }

/-- The successful run of `visit_branch` on the witness state. -/
def c4Run : FuncState × Regs :=
  match visit_branch baseEnv c4State ⟨{0, 1, 2, 3}⟩ 0 .brz with
  | .ok p => p
  | .error _ => (c4State, ⟨{0, 1, 2, 3}⟩)

/-- Witness for C4: the edge-splitting theorem applied to the concrete
`brz` with a one-parameter target. -/
theorem minimal_c4_edge_split_witness :
    c4Run.1.layout = c4State.layout.dropLast ++ [c4State.nextEbb, 3] ∧
    c4Run.1.ebbParams c4State.nextEbb = [] ∧
    (branchDest (c4Run.1.instData 0) = some c4State.nextEbb ∧
      (c4Run.1.instData 0).varargs = []) ∧
    c4Run.1.ebbInsts c4State.nextEbb = [c4State.nextInst] ∧
    (∃ va1, c4Run.1.instData c4State.nextInst = .jump 2 va1) ∧
    EmitEvent.jumpInserted c4State.nextInst c4State.nextEbb 2 [11] ∈ c4Run.1.emitted ∧
    c4Run.1.newBlocks = true ∧
    (∀ stX : FuncState, stX.instData 0 = c4State.instData 0 → ∀ e : Ebb,
      rewrite_side_exit stX 0 .brz e =
        .ok { stX with
          instData := upd stX.instData 0 (rewrittenData (c4State.instData 0) e) } ∧
      condArgs (rewrittenData (c4State.instData 0) e) = condArgs (c4State.instData 0) ∧
      branchDest (rewrittenData (c4State.instData 0) e) = some e ∧
      (rewrittenData (c4State.instData 0) e).varargs = []) := by
  have h : visit_branch baseEnv c4State ⟨{0, 1, 2, 3}⟩ 0 .brz =
      .ok (c4Run.1, c4Run.2) := rfl
  exact minimal_c4_edge_split baseEnv c4State ⟨{0, 1, 2, 3}⟩ 0 .brz 2 [11] 3
    c4Run.1 c4Run.2 (Or.inl ⟨Or.inl rfl, 7, rfl⟩) (by decide) rfl (by decide) h

/-! ## C8: phi insertion in `find_redefinition` -/

/-- Specification of the predecessor loop of the phi-insertion arm: each
predecessor terminator (they are distinct) gets exactly one occurrence of
`name` appended to its argument list, every other instruction is
untouched, the loop returns the predecessors as the new uses, and no
other field of the state changes. -/
theorem append_pred_args_spec (name : Value) (preds : List Inst) :
    ∀ (st : SplitState), preds.Nodup →
      (append_pred_args st name preds).2 = preds ∧
      (∀ p ∈ preds,
        (append_pred_args st name preds).1.instArgs p = st.instArgs p ++ [name]) ∧
      (∀ i, i ∉ preds →
        (append_pred_args st name preds).1.instArgs i = st.instArgs i) ∧
      (append_pred_args st name preds).1.ebbParams = st.ebbParams ∧
      (append_pred_args st name preds).1.valueType = st.valueType ∧
      (append_pred_args st name preds).1.nextValue = st.nextValue := by
  induction preds with
  | nil =>
    intro st _
    exact ⟨rfl, by simp, fun i _ => rfl, rfl, rfl, rfl⟩
  | cons p rest ih =>
    intro st hnd
    obtain ⟨hp, hrest⟩ := List.nodup_cons.mp hnd
    rw [append_pred_args]
    obtain ⟨g1, g2, g3, g4, g5, g6⟩ := ih
      { st with instArgs := upd st.instArgs p (st.instArgs p ++ [name]) } hrest
    dsimp only
    rw [g1]
    refine ⟨rfl, ?_, ?_, g4, g5, g6⟩
    · intro q hq
      rcases List.mem_cons.mp hq with rfl | hq'
      · rw [g3 q hp]
        exact upd_same _ _ _
      · rw [g2 q hq']
        have hqp : q ≠ p := fun hx => hp (hx ▸ hq')
        dsimp only
        rw [upd_of_ne _ _ hqp]
    · intro i hi
      have hip : i ≠ p := fun hx => hi (hx ▸ List.mem_cons_self _ _)
      have hirest : i ∉ rest := fun hx => hi (List.mem_cons_of_mem _ hx)
      rw [g3 i hirest]
      dsimp only
      rw [upd_of_ne _ _ hip]

/-- C8: when the walk of `find_redefinition` reaches a BB of the
iterated dominance frontier (no redefinition found there, and it has an
immediate dominator), a fresh EBB parameter of the original value's type
is appended to the containing EBB, every CFG predecessor's terminator
gets exactly one occurrence of the original value appended as an
outgoing argument, and exactly those terminators are returned as the new
uses to be renamed. -/
theorem splitting_c8_phi_insertion
    (env : SEnv) (st : SplitState) (use_bb : BB) (use_pp : Nat) (name : Value)
    (new_names : List Value) (idf : List BB) (fuel : Nat) (target_bb : BB)
    (idom : BB)
    (hscan : (scan_for_defn env use_bb target_bb use_pp new_names
        (none, env.inst_pp target_bb)).1 = none)
    (hidom : env.bb_idom target_bb = some idom)
    (hidf : target_bb ∈ idf)
    (hnd : (env.preds (env.bb_ebb target_bb)).Nodup) :
    ∃ st2,
      find_redefinition_walk env st use_bb use_pp name new_names idf (fuel + 1)
          target_bb =
        some (some st.nextValue,
          some (st.nextValue, env.preds (env.bb_ebb target_bb)), st2) ∧
      st2.ebbParams (env.bb_ebb target_bb) =
        st.ebbParams (env.bb_ebb target_bb) ++ [st.nextValue] ∧
      st2.valueType st.nextValue = st.valueType name ∧
      (∀ p ∈ env.preds (env.bb_ebb target_bb),
        st2.instArgs p = st.instArgs p ++ [name]) ∧
      (∀ i, i ∉ env.preds (env.bb_ebb target_bb) →
        st2.instArgs i = st.instArgs i) := by
  obtain ⟨g1, g2, g3, g4, g5, g6⟩ := append_pred_args_spec name
    (env.preds (env.bb_ebb target_bb))
    { st with
      nextValue := st.nextValue + 1
      valueType := upd st.valueType st.nextValue (st.valueType name)
      ebbParams := upd st.ebbParams (env.bb_ebb target_bb)
        (st.ebbParams (env.bb_ebb target_bb) ++ [st.nextValue]) } hnd
  refine ⟨(append_pred_args
    { st with
      nextValue := st.nextValue + 1
      valueType := upd st.valueType st.nextValue (st.valueType name)
      ebbParams := upd st.ebbParams (env.bb_ebb target_bb)
        (st.ebbParams (env.bb_ebb target_bb) ++ [st.nextValue]) }
    name (env.preds (env.bb_ebb target_bb))).1, ?_, ?_, ?_, ?_, ?_⟩
  · rw [find_redefinition_walk]
    dsimp only
    rw [hscan]
    dsimp only
    rw [hidom]
    dsimp only
    rw [if_pos hidf]
    cases happ : append_pred_args
      { st with
        nextValue := st.nextValue + 1
        valueType := upd st.valueType st.nextValue (st.valueType name)
        ebbParams := upd st.ebbParams (env.bb_ebb target_bb)
          (st.ebbParams (env.bb_ebb target_bb) ++ [st.nextValue]) }
      name (env.preds (env.bb_ebb target_bb)) with
    | mk st2p usesp =>
      rw [happ] at g1
      have g1x : usesp = env.preds (env.bb_ebb target_bb) := g1
      subst g1x
      rfl
  · rw [g4]
    dsimp only
    exact upd_same _ _ _
  · rw [g5]
    dsimp only
    exact upd_same _ _ _
  · exact g2
  · exact g3

/-- The environment for the phi-insertion witness: BB `10` lives in EBB
`2`, whose CFG predecessors terminate at instructions `3` and `4`; BB
`10` has an immediate dominator. -/
def c8Env : SEnv where
  bb_idom := fun b => if b = 10 then some 5 else none
  value_def := fun _ => .param 0 0
  inst_bb := fun _ => 10
  ebb_bb := fun e => e
  bb_ebb := fun _ => 2
  inst_pp := fun i => i
  ebb_pp := fun e => e
  preds := fun e => if e = 2 then [3, 4] else []

/-- The state for the phi-insertion witness. -/
def c8St : SplitState where
  ebbParams := fun e => if e = 2 then [20] else []
  instArgs := fun i => if i = 3 then [30] else if i = 4 then [40] else []
  valueType := fun v => if v = 9 then 5 else 0
  nextValue := 100

/-- Witness for C8: the phi-insertion theorem applied at a concrete use
of value `9` in BB `10` of EBB `2` lying on the iterated dominance
frontier. -/
theorem splitting_c8_phi_insertion_witness :
    ∃ st2,
      find_redefinition_walk c8Env c8St 10 7 9 [] [10] (0 + 1) 10 =
        some (some c8St.nextValue,
          some (c8St.nextValue, c8Env.preds (c8Env.bb_ebb 10)), st2) ∧
      st2.ebbParams (c8Env.bb_ebb 10) =
        c8St.ebbParams (c8Env.bb_ebb 10) ++ [c8St.nextValue] ∧
      st2.valueType c8St.nextValue = c8St.valueType 9 ∧
      (∀ p ∈ c8Env.preds (c8Env.bb_ebb 10),
        st2.instArgs p = c8St.instArgs p ++ [9]) ∧
      (∀ i, i ∉ c8Env.preds (c8Env.bb_ebb 10) →
        st2.instArgs i = c8St.instArgs i) :=
  splitting_c8_phi_insertion c8Env c8St 10 7 9 [] [10] 0 10 5 rfl rfl
    (by decide) (by decide)

/-! ## C10: no redefinition found anywhere up the idom chain -/

/-- A finite BB immediate-dominator chain: from the start BB, `rest`
lists the successive immediate dominators, and the last BB (or the start
itself when `rest` is empty) has none. -/
def idomChain (env : SEnv) : BB → List BB → Prop
  | b, [] => env.bb_idom b = none
  | b, b' :: rest => env.bb_idom b = some b' ∧ idomChain env b' rest

/-- When no BB on the chain yields a definition and none of them lies in
the iterated dominance frontier, the walk terminates with no result and
the state untouched. -/
theorem frd_walk_none (env : SEnv) (st : SplitState) (use_bb : BB)
    (use_pp : Nat) (name : Value) (new_names : List Value) (idf : List BB) :
    ∀ (rest : List BB) (b : BB) (fuel : Nat), rest.length < fuel →
      idomChain env b rest →
      (∀ x ∈ b :: rest, (scan_for_defn env use_bb x use_pp new_names
          (none, env.inst_pp x)).1 = none) →
      (∀ x ∈ b :: rest, x ∉ idf) →
      find_redefinition_walk env st use_bb use_pp name new_names idf fuel b =
        some (none, none, st) := by
  intro rest
  induction rest with
  | nil =>
    intro b fuel hfuel hchain hscan _
    cases fuel with
    | zero => omega
    | succ f =>
      rw [find_redefinition_walk]
      dsimp only
      rw [hscan b (List.mem_cons_self _ _)]
      dsimp only
      rw [hchain]
  | cons b' rest' ih =>
    intro b fuel hfuel hchain hscan hidf
    cases fuel with
    | zero => omega
    | succ f =>
      obtain ⟨hlink, hchain'⟩ := hchain
      rw [find_redefinition_walk]
      dsimp only
      rw [hscan b (List.mem_cons_self _ _)]
      dsimp only
      rw [hlink]
      dsimp only
      rw [if_neg (hidf b (List.mem_cons_self _ _))]
      refine ih b' f ?_ hchain' ?_ ?_
      · simp only [List.length_cons] at hfuel
        omega
      · intro x hx
        exact hscan x (List.mem_cons_of_mem _ hx)
      · intro x hx
        exact hidf x (List.mem_cons_of_mem _ hx)

/-- C10: when the walk up the BB immediate-dominator chain reaches a BB
with no immediate dominator, finding no definition among the new names
and passing through no BB of the iterated dominance frontier, the use
instruction is left entirely unchanged: `rename_uses` performs no
argument replacement and inserts no phi, returning the state as it was. -/
theorem splitting_c10_no_redefinition_unchanged
    (env : SEnv) (st : SplitState) (use_inst : Inst) (name : Value)
    (new_names : List Value) (idf : List BB) (rest : List BB) (fuel : Nat)
    (hfuel : rest.length < fuel)
    (hchain : idomChain env (env.inst_bb use_inst) rest)
    (hscan : ∀ x ∈ env.inst_bb use_inst :: rest,
      (scan_for_defn env (env.inst_bb use_inst) x (env.inst_pp use_inst)
        new_names (none, env.inst_pp x)).1 = none)
    (hidf : ∀ x ∈ env.inst_bb use_inst :: rest, x ∉ idf) :
    rename_uses_step env st use_inst name new_names idf fuel = some (st, none) := by
  rw [rename_uses_step, find_redefinition]
  rw [frd_walk_none env st (env.inst_bb use_inst) (env.inst_pp use_inst) name
    new_names idf rest (env.inst_bb use_inst) fuel hfuel hchain hscan hidf]
  rfl

/-- The environment for the C10 witness: the BB of the use is `10`, its
idom is `5`, and `5` has no idom. -/
def c10Env : SEnv where
  bb_idom := fun b => if b = 10 then some 5 else none
  value_def := fun _ => .param 0 0
  inst_bb := fun _ => 10
  ebb_bb := fun e => e
  bb_ebb := fun _ => 2
  inst_pp := fun i => i
  ebb_pp := fun e => e
  preds := fun _ => []

/-- The state for the C10 witness. -/
def c10St : SplitState where
  ebbParams := fun _ => []
  instArgs := fun i => if i = 0 then [9, 8] else []
  valueType := fun _ => 0
  nextValue := 100

/-- Witness for C10: on a two-BB chain with no new-name definitions and
an empty iterated dominance frontier, the rename step leaves the state
untouched and produces no phi. -/
theorem splitting_c10_no_redefinition_unchanged_witness :
    rename_uses_step c10Env c10St 0 9 [] [] 3 = some (c10St, none) :=
  splitting_c10_no_redefinition_unchanged c10Env c10St 0 9 [] [] [5] 3
    (by decide) ⟨rfl, rfl⟩ (fun x _ => rfl) (by simp)

end Cretonne
